import Mathlib

/-!
Shallow embedding of the work-board core (`src/models/workitem.py`,
`src/models/workboard.py`).

UUIDs are modelled as `Nat`, timestamps as `Nat`.  The Python `dict`
keyed by id is modelled as an association list with first-match lookup;
assignment replaces the entry in place when the key is present (Python
dicts keep insertion order on overwrite) and appends otherwise, and
deletion removes the keyed entry.

Python exceptions are modelled by returning the error kind together with
the state at raise time: every board operation returns
`Option BoardError × WorkBoard`, where `some e` means the Python code
raised and the returned board is the (possibly partially mutated) state
the exception left behind.
-/

namespace WorkApp

inductive WorkItemStatus where
  | to_do
  | in_progress
  | done
deriving DecidableEq

inductive WorkItemType where
  | task
  | story
  | feature
  | epic
deriving DecidableEq

/-- Error kinds of the board core, following the spec's taxonomy:
`notFound` is `WorkItemNotFoundError`, `capacity` the `ValueError`
raised on a full board or a full children list, `relationship` the
`ValueError` raised by `remove_child` on a missing link. -/
inductive BoardError where
  | notFound
  | capacity
  | relationship
deriving DecidableEq

/-- `WorkItem` (workitem.py). -/
structure WorkItem where
  id : Nat
  work_item_type : WorkItemType
  created_at : Nat
  parent_id : Option Nat
  children_ids : List Nat
  status : WorkItemStatus
  title : String
  description : String
deriving DecidableEq

/-- The pydantic field constraints and the `children_ids` uniqueness
model-validator declared on `WorkItem`. -/
def validWorkItem (it : WorkItem) : Prop :=
  1 ≤ it.title.length ∧ it.title.length ≤ 255 ∧
  1 ≤ it.description.length ∧ it.description.length ≤ 2000 ∧
  it.children_ids.length ≤ 100 ∧ it.children_ids.Nodup

instance (it : WorkItem) : Decidable (validWorkItem it) := by
  unfold validWorkItem; infer_instance

namespace WorkItem

/-- `WorkItem.add_parent`: sets `parent_id` unconditionally. -/
def add_parent (it : WorkItem) (pid : Nat) : WorkItem :=
  { it with parent_id := some pid }

/-- `WorkItem.remove_parent`: clears `parent_id`. -/
def remove_parent (it : WorkItem) : WorkItem :=
  { it with parent_id := none }

/-- `WorkItem.add_child`: no-op when already present, capacity error at
100 children, otherwise appends. -/
def add_child (it : WorkItem) (cid : Nat) : Except BoardError WorkItem :=
  if cid ∈ it.children_ids then .ok it
  else if 100 ≤ it.children_ids.length then .error .capacity
  else .ok { it with children_ids := it.children_ids ++ [cid] }

/-- `WorkItem.remove_child`: relationship error when absent, otherwise
removes the (first) occurrence, as Python `list.remove`. -/
def remove_child (it : WorkItem) (cid : Nat) : Except BoardError WorkItem :=
  if cid ∈ it.children_ids then
    .ok { it with children_ids := it.children_ids.erase cid }
  else .error .relationship

end WorkItem

/-- Lookup in the id-keyed store: first entry with the key. -/
def dictGet : List (Nat × WorkItem) → Nat → Option WorkItem
  | [], _ => none
  | (k', v) :: rest, k => if k' = k then some v else dictGet rest k

/-- Assignment `d[k] = v`: replace in place when present, append when
absent (Python dict semantics under unique keys). -/
def dictSet : List (Nat × WorkItem) → Nat → WorkItem → List (Nat × WorkItem)
  | [], k, v => [(k, v)]
  | (k', v') :: rest, k, v =>
      if k' = k then (k, v) :: rest else (k', v') :: dictSet rest k v

/-- Deletion `del d[k]`. -/
def dictDel : List (Nat × WorkItem) → Nat → List (Nat × WorkItem)
  | [], _ => []
  | (k', v') :: rest, k =>
      if k' = k then dictDel rest k else (k', v') :: dictDel rest k

/-- The keyword updates accepted by `update_work_item` along the fields
the spec routes through this path (title/description/status). -/
structure WorkItemUpdate where
  title : Option String
  description : Option String
  status : Option WorkItemStatus

/-- pydantic `model_copy(update=...)`: returns a copy with the supplied
fields replaced.  pydantic performs NO validation on `model_copy`. -/
def modelCopy (it : WorkItem) (u : WorkItemUpdate) : WorkItem :=
  { it with
      title := u.title.getD it.title
      description := u.description.getD it.description
      status := u.status.getD it.status }

/-- `WorkBoard` (workboard.py). -/
structure WorkBoard where
  id : Nat
  created_at : Nat
  name : String
  description : String
  work_items : List (Nat × WorkItem)
deriving DecidableEq

namespace WorkBoard

/-- `WorkBoard.find_work_item`. -/
def find_work_item (b : WorkBoard) (id : Nat) : Option WorkItem :=
  dictGet b.work_items id

/-- `self.work_items[k] = v` on the board. -/
def setItem (b : WorkBoard) (k : Nat) (v : WorkItem) : WorkBoard :=
  { b with work_items := dictSet b.work_items k v }

/-- `del self.work_items[k]` on the board. -/
def delItem (b : WorkBoard) (k : Nat) : WorkBoard :=
  { b with work_items := dictDel b.work_items k }

/-- `WorkBoard.get_work_item`: raises `WorkItemNotFoundError` when absent. -/
def get_work_item (b : WorkBoard) (id : Nat) : Except BoardError WorkItem :=
  match b.find_work_item id with
  | some it => .ok it
  | none => .error .notFound

/-- `WorkBoard.link_parent_and_child`.  In the source, `parent` and
`child` are live references into the dict; when `parent_id = child_id`
they are the same object, so after the child-side mutation the parent is
re-read from the updated store. -/
def link_parent_and_child (b : WorkBoard) (parent_id child_id : Nat) :
    Option BoardError × WorkBoard :=
  match b.find_work_item parent_id with
  | none => (some .notFound, b)
  | some parent =>
    match b.find_work_item child_id with
    | none => (some .notFound, b)
    | some child =>
      let b1 := b.setItem child_id (child.add_parent parent_id)
      let parent1 := (dictGet b1.work_items parent_id).getD parent
      match parent1.add_child child_id with
      | .error e => (some e, b1)
      | .ok parent2 => (none, b1.setItem parent_id parent2)

/-- `WorkBoard.unlink_parent_and_child`.  The same live-reference remark
as for `link_parent_and_child` applies to the child re-read. -/
def unlink_parent_and_child (b : WorkBoard) (parent_id child_id : Nat) :
    Option BoardError × WorkBoard :=
  match b.find_work_item parent_id with
  | none => (some .notFound, b)
  | some parent =>
    match b.find_work_item child_id with
    | none => (some .notFound, b)
    | some child =>
      match parent.remove_child child_id with
      | .error e => (some e, b)
      | .ok parent1 =>
        let b1 := b.setItem parent_id parent1
        let child1 := (dictGet b1.work_items child_id).getD child
        (none, b1.setItem child_id child1.remove_parent)

/-- The `for child_id in work_item.children_ids` loop of
`add_work_item`: link each child in order, propagating the first raised
error together with the state at raise time. -/
def linkChildren (pid : Nat) : WorkBoard → List Nat → Option BoardError × WorkBoard
  | b, [] => (none, b)
  | b, c :: rest =>
    match b.link_parent_and_child pid c with
    | (some e, b1) => (some e, b1)
    | (none, b1) => linkChildren pid b1 rest

/-- `WorkBoard.add_work_item`: capacity check, then registration, then
parent link, then child links.  A raise after registration leaves the
item registered, as in the source. -/
def add_work_item (b : WorkBoard) (item : WorkItem) : Option BoardError × WorkBoard :=
  if 5000 ≤ b.work_items.length then (some .capacity, b)
  else
    let b1 := b.setItem item.id item
    match item.parent_id with
    | some pid =>
      match b1.link_parent_and_child pid item.id with
      | (some e, b2) => (some e, b2)
      | (none, b2) => linkChildren item.id b2 item.children_ids
    | none => linkChildren item.id b1 item.children_ids

/-- `WorkBoard.update_work_item`: fetch, copy with updates, reinstall. -/
def update_work_item (b : WorkBoard) (id : Nat) (u : WorkItemUpdate) :
    Option BoardError × WorkBoard :=
  match b.find_work_item id with
  | none => (some .notFound, b)
  | some item => (none, b.setItem id (modelCopy item u))

/-- The `for child_id in children_ids_copy` loop of `delete_work_item`. -/
def unlinkChildren (pid : Nat) : WorkBoard → List Nat → Option BoardError × WorkBoard
  | b, [] => (none, b)
  | b, c :: rest =>
    match b.unlink_parent_and_child pid c with
    | (some e, b1) => (some e, b1)
    | (none, b1) => unlinkChildren pid b1 rest

/-- `WorkBoard.delete_work_item`: unlink from the parent, unlink every
child (iterating a copy of the live object's `children_ids`, hence the
re-read after the parent unlink), then remove the entry. -/
def delete_work_item (b : WorkBoard) (id : Nat) : Option BoardError × WorkBoard :=
  match b.find_work_item id with
  | none => (some .notFound, b)
  | some item =>
    match (match item.parent_id with
           | some pid => b.unlink_parent_and_child pid id
           | none => (none, b)) with
    | (some e, b1) => (some e, b1)
    | (none, b1) =>
      let cs := match dictGet b1.work_items id with
        | some it => it.children_ids
        | none => []
      match unlinkChildren id b1 cs with
      | (some e, b2) => (some e, b2)
      | (none, b2) => (none, b2.delItem id)

end WorkBoard

/-! ## Invariants -/

/-- The keys of the store are pairwise distinct (a Python dict cannot
hold a key twice). -/
def KeysNodup (b : WorkBoard) : Prop := (b.work_items.map Prod.fst).Nodup

/-- Every entry is stored under its item's id. -/
def WellKeyed (b : WorkBoard) : Prop := ∀ kv ∈ b.work_items, kv.1 = kv.2.id

/-- Every `children_ids` list is duplicate-free. -/
def ChildrenOk (b : WorkBoard) : Prop := ∀ kv ∈ b.work_items, kv.2.children_ids.Nodup

/-- Every parent/child reference resolves on the board. -/
def NoDangling (b : WorkBoard) : Prop :=
  ∀ kv ∈ b.work_items,
    (∀ p ∈ kv.2.parent_id, (dictGet b.work_items p).isSome = true) ∧
    (∀ c ∈ kv.2.children_ids, (dictGet b.work_items c).isSome = true)

/-- The link-symmetry invariant, stated on stored entries by key. -/
def LinkSym (b : WorkBoard) : Prop :=
  ∀ kvA ∈ b.work_items, ∀ kvB ∈ b.work_items,
    (kvB.1 ∈ kvA.2.children_ids ↔ kvB.2.parent_id = some kvA.1)

/-- The full board invariant of spec §3. -/
def boardInv (b : WorkBoard) : Prop :=
  KeysNodup b ∧ WellKeyed b ∧ ChildrenOk b ∧ NoDangling b ∧ LinkSym b

instance (b : WorkBoard) : Decidable (KeysNodup b) := by
  unfold KeysNodup; infer_instance
instance (b : WorkBoard) : Decidable (WellKeyed b) := by
  unfold WellKeyed; infer_instance
instance (b : WorkBoard) : Decidable (ChildrenOk b) := by
  unfold ChildrenOk; infer_instance
instance (b : WorkBoard) : Decidable (NoDangling b) := by
  unfold NoDangling; infer_instance
instance (b : WorkBoard) : Decidable (LinkSym b) := by
  unfold LinkSym; infer_instance
instance (b : WorkBoard) : Decidable (boardInv b) := by
  unfold boardInv; infer_instance

/-- Spec §3/§8 link symmetry exactly as worded: for any two items A, B
on the board, `B.id ∈ A.children_ids ⟺ B.parent_id == A.id`. -/
def BoardLinkSymmetric (b : WorkBoard) : Prop :=
  ∀ kvA ∈ b.work_items, ∀ kvB ∈ b.work_items,
    (kvB.2.id ∈ kvA.2.children_ids ↔ kvB.2.parent_id = some kvA.2.id)

instance (b : WorkBoard) : Decidable (BoardLinkSymmetric b) := by
  unfold BoardLinkSymmetric; infer_instance

/-! Lookup-keyed restatements of the invariant components, used by the
preservation proofs. -/

/-- `WellKeyed`, by lookup. -/
def WellKeyedL (b : WorkBoard) : Prop :=
  ∀ k it, dictGet b.work_items k = some it → it.id = k

/-- `ChildrenOk`, by lookup. -/
def ChildrenOkL (b : WorkBoard) : Prop :=
  ∀ k it, dictGet b.work_items k = some it → it.children_ids.Nodup

/-- `NoDangling`, by lookup. -/
def NoDanglingL (b : WorkBoard) : Prop :=
  ∀ k it, dictGet b.work_items k = some it →
    (∀ p ∈ it.parent_id, (dictGet b.work_items p).isSome = true) ∧
    (∀ c ∈ it.children_ids, (dictGet b.work_items c).isSome = true)

/-- `LinkSym`, by lookup. -/
def LinkSymL (b : WorkBoard) : Prop :=
  ∀ ka A kb B, dictGet b.work_items ka = some A → dictGet b.work_items kb = some B →
    (kb ∈ A.children_ids ↔ B.parent_id = some ka)

/-- The board invariant, by lookup. -/
def boardInvL (b : WorkBoard) : Prop :=
  KeysNodup b ∧ WellKeyedL b ∧ ChildrenOkL b ∧ NoDanglingL b ∧ LinkSymL b

/-- Boards reachable from an empty board through calls that succeed and
never silently re-parent: `add_work_item` only of an item with a fresh
id, no preset children, and a parent (when preset) that exists with
spare child capacity; `link_parent_and_child` only when the parent
exists with the link already present or spare capacity and the child
exists with no current parent or the same parent; unlink/delete of
existing links/items. -/
inductive Reachable : WorkBoard → Prop where
  | empty (i t : Nat) (n d : String) :
      Reachable { id := i, created_at := t, name := n, description := d, work_items := [] }
  | add (b : WorkBoard) (item : WorkItem)
      (hr : Reachable b)
      (hcap : b.work_items.length < 5000)
      (hfresh : dictGet b.work_items item.id = none)
      (hch : item.children_ids = [])
      (hpar : ∀ pid ∈ item.parent_id,
        ∃ P, dictGet b.work_items pid = some P ∧ P.children_ids.length < 100) :
      Reachable (b.add_work_item item).2
  | link (b : WorkBoard) (p c : Nat)
      (hr : Reachable b)
      (hP : ∃ P, dictGet b.work_items p = some P ∧
        (c ∈ P.children_ids ∨ P.children_ids.length < 100))
      (hC : ∃ C, dictGet b.work_items c = some C ∧
        (C.parent_id = none ∨ C.parent_id = some p)) :
      Reachable (b.link_parent_and_child p c).2
  | unlink (b : WorkBoard) (p c : Nat)
      (hr : Reachable b)
      (hP : ∃ P, dictGet b.work_items p = some P ∧ c ∈ P.children_ids)
      (hC : (dictGet b.work_items c).isSome = true) :
      Reachable (b.unlink_parent_and_child p c).2
  | delete (b : WorkBoard) (id : Nat)
      (hr : Reachable b)
      (hid : (dictGet b.work_items id).isSome = true) :
      Reachable (b.delete_work_item id).2

/-- The list of child ids iterated by the delete loop: the live list of
the deleted item after the parent-side unlink (which shrinks it only
when the item is its own parent). -/
def deleteChildren (X : WorkItem) (id : Nat) : List Nat :=
  if X.parent_id = some id then X.children_ids.erase id else X.children_ids

/-- Pointwise effect of a successful unlink on each stored entry. -/
def unlinkTransform (p c k : Nat) (it : WorkItem) : WorkItem :=
  { it with
      parent_id := if k = c then none else it.parent_id
      children_ids := if k = p then it.children_ids.erase c else it.children_ids }

/-- Pointwise effect of a link that appends a new child on each stored
entry. -/
def linkTransform (p c k : Nat) (it : WorkItem) : WorkItem :=
  { it with
      parent_id := if k = c then some p else it.parent_id
      children_ids := if k = p then it.children_ids ++ [c] else it.children_ids }

/-! ## Concrete boards and items used by counterexamples and witnesses -/

def emptyBoard : WorkBoard := ⟨0, 0, "board", "a board", []⟩

def itemA : WorkItem := ⟨1, .epic, 0, none, [], .to_do, "A", "item a"⟩
def itemB : WorkItem := ⟨2, .epic, 0, none, [], .to_do, "B", "item b"⟩
def itemC : WorkItem := ⟨3, .task, 0, none, [], .to_do, "C", "item c"⟩

/-- `add A; add B; add C; link(A,C); link(B,C)` — every call succeeds,
the last one silently re-parents C away from A. -/
def c1Board : WorkBoard :=
  (((((emptyBoard.add_work_item itemA).2.add_work_item
      itemB).2.add_work_item itemC).2.link_parent_and_child 1 3).2.link_parent_and_child 2 3).2

/-- `add A; add B; link(A,B)` — a guarded trace. -/
def c1WitBoard : WorkBoard :=
  (((emptyBoard.add_work_item itemA).2.add_work_item itemB).2.link_parent_and_child 1 2).2

def c2Item : WorkItem := ⟨1, .task, 0, some 99, [], .to_do, "T", "a task"⟩

def c3Parent : WorkItem := ⟨100, .story, 0, none, List.range 100, .to_do, "P", "full parent"⟩
def c3Child : WorkItem := ⟨101, .task, 0, none, [], .to_do, "C", "a child"⟩
def c3Board : WorkBoard := ⟨0, 0, "board", "a board", [(100, c3Parent), (101, c3Child)]⟩

def c4Item : WorkItem := ⟨1, .task, 0, none, [], .to_do, "Valid title", "a task"⟩
def c4Board : WorkBoard := ⟨0, 0, "board", "a board", [(1, c4Item)]⟩
def c4Update : WorkItemUpdate := ⟨some "", none, none⟩

/-- A 2-cycle reachable through two `link_parent_and_child` calls:
X and P are mutually parent and child; link symmetry holds. -/
def c5X : WorkItem := ⟨1, .epic, 0, some 2, [2], .to_do, "X", "item x"⟩
def c5P : WorkItem := ⟨2, .epic, 0, some 1, [1], .to_do, "P", "item p"⟩
def c5CycBoard : WorkBoard := ⟨0, 0, "board", "a board", [(1, c5X), (2, c5P)]⟩

def c5Item : WorkItem := ⟨1, .epic, 0, some 2, [3], .to_do, "X", "item x"⟩
def c5Par : WorkItem := ⟨2, .story, 0, none, [1], .to_do, "P", "item p"⟩
def c5Kid : WorkItem := ⟨3, .task, 0, some 1, [], .to_do, "K", "item k"⟩
def c5WitBoard : WorkBoard :=
  ⟨0, 0, "board", "a board", [(1, c5Item), (2, c5Par), (3, c5Kid)]⟩

def c6Item : WorkItem := ⟨1, .task, 5, some 9, [7], .in_progress, "Old", "a task"⟩
def c6Board : WorkBoard := ⟨0, 0, "board", "a board", [(1, c6Item)]⟩

def c7Parent : WorkItem := ⟨1, .story, 0, none, [], .to_do, "P", "a story"⟩
def c7Child : WorkItem := ⟨2, .task, 0, none, [], .to_do, "C", "a task"⟩
def c7Board : WorkBoard := ⟨0, 0, "board", "a board", [(1, c7Parent), (2, c7Child)]⟩

def c8BigBoard : WorkBoard :=
  ⟨0, 0, "board", "a board",
    (List.range 5000).map (fun i => (i, ⟨i, .task, 0, none, [], .to_do, "t", "x"⟩))⟩
def c8NewItem : WorkItem := ⟨6000, .task, 0, none, [], .to_do, "t", "x"⟩
def c8FullParent : WorkItem := ⟨6001, .story, 0, none, List.range 100, .to_do, "P", "full"⟩

def c9Old : WorkItem := ⟨1, .task, 0, none, [], .to_do, "Old", "old one"⟩
def c9New : WorkItem := ⟨1, .task, 0, none, [], .done, "New", "new one"⟩
def c9Board : WorkBoard := ⟨0, 0, "board", "a board", [(1, c9Old)]⟩

def c10Parent : WorkItem := ⟨1, .story, 0, none, [2], .to_do, "P", "a story"⟩
def c10Child : WorkItem := ⟨2, .task, 0, some 7, [], .to_do, "C", "a task"⟩
def c10Board : WorkBoard := ⟨0, 0, "board", "a board", [(1, c10Parent), (2, c10Child)]⟩

/-! ## Store lemmas -/

theorem dictGet_set_self (d : List (Nat × WorkItem)) (k : Nat) (v : WorkItem) :
    dictGet (dictSet d k v) k = some v := by
  induction d with
  | nil => simp [dictSet, dictGet]
  | cons kv rest ih =>
    obtain ⟨k1, v1⟩ := kv
    by_cases h : k1 = k
    · simp [dictSet, dictGet, h]
    · simp only [dictSet, if_neg h, dictGet]
      exact ih

theorem dictGet_set_ne (d : List (Nat × WorkItem)) {k k' : Nat} (v : WorkItem)
    (h : k' ≠ k) : dictGet (dictSet d k v) k' = dictGet d k' := by
  induction d with
  | nil => simp only [dictSet, dictGet, if_neg (Ne.symm h)]
  | cons kv rest ih =>
    obtain ⟨k1, v1⟩ := kv
    by_cases hk : k1 = k
    · subst hk
      simp only [dictSet, if_pos rfl, dictGet, if_neg (Ne.symm h)]
    · simp only [dictSet, if_neg hk, dictGet]
      by_cases hk' : k1 = k'
      · rw [if_pos hk', if_pos hk']
      · rw [if_neg hk', if_neg hk']
        exact ih

theorem dictGet_del_self (d : List (Nat × WorkItem)) (k : Nat) :
    dictGet (dictDel d k) k = none := by
  induction d with
  | nil => simp [dictDel, dictGet]
  | cons kv rest ih =>
    obtain ⟨k1, v1⟩ := kv
    by_cases h : k1 = k
    · simpa [dictDel, h] using ih
    · simp only [dictDel, if_neg h, dictGet]
      exact ih

theorem dictGet_del_ne (d : List (Nat × WorkItem)) {k k' : Nat} (h : k' ≠ k) :
    dictGet (dictDel d k) k' = dictGet d k' := by
  induction d with
  | nil => simp [dictDel]
  | cons kv rest ih =>
    obtain ⟨k1, v1⟩ := kv
    by_cases hk : k1 = k
    · subst hk
      simp only [dictDel, if_pos rfl, dictGet, if_neg (Ne.symm h)]
      exact ih
    · simp only [dictDel, if_neg hk, dictGet]
      by_cases hk' : k1 = k'
      · rw [if_pos hk', if_pos hk']
      · rw [if_neg hk', if_neg hk']
        exact ih

theorem dictSet_length_present (d : List (Nat × WorkItem)) (k : Nat) (v w : WorkItem)
    (h : dictGet d k = some w) : (dictSet d k v).length = d.length := by
  induction d with
  | nil => simp [dictGet] at h
  | cons kv rest ih =>
    obtain ⟨k1, v1⟩ := kv
    by_cases hk : k1 = k
    · simp [dictSet, hk]
    · simp only [dictGet, if_neg hk] at h
      simp [dictSet, if_neg hk, ih h]

theorem dictGet_eq_none_iff (d : List (Nat × WorkItem)) (k : Nat) :
    dictGet d k = none ↔ k ∉ d.map Prod.fst := by
  induction d with
  | nil => simp [dictGet]
  | cons kv rest ih =>
    obtain ⟨k1, v1⟩ := kv
    by_cases hk : k1 = k
    · simp [dictGet, hk]
    · have hk' : k ≠ k1 := fun hh => hk hh.symm
      simp [dictGet, if_neg hk, ih, hk']

theorem mem_of_dictGet {d : List (Nat × WorkItem)} {k : Nat} {v : WorkItem}
    (h : dictGet d k = some v) : (k, v) ∈ d := by
  induction d with
  | nil => simp [dictGet] at h
  | cons kv rest ih =>
    obtain ⟨k1, v1⟩ := kv
    by_cases hk : k1 = k
    · subst hk
      simp [dictGet] at h
      obtain rfl := h
      exact List.mem_cons_self _ _
    · simp only [dictGet, if_neg hk] at h
      exact List.mem_cons_of_mem _ (ih h)

theorem dictGet_isSome_iff (d : List (Nat × WorkItem)) (k : Nat) :
    (dictGet d k).isSome = true ↔ k ∈ d.map Prod.fst := by
  rcases h : dictGet d k with _ | v
  · rw [dictGet_eq_none_iff] at h
    simp [h]
  · have hm := mem_of_dictGet h
    simp only [Option.isSome_some, true_iff]
    exact List.mem_map.mpr ⟨(k, v), hm, rfl⟩

theorem keys_set_present (d : List (Nat × WorkItem)) (k : Nat) (v : WorkItem)
    (h : (dictGet d k).isSome = true) :
    (dictSet d k v).map Prod.fst = d.map Prod.fst := by
  induction d with
  | nil => simp [dictGet] at h
  | cons kv rest ih =>
    obtain ⟨k1, v1⟩ := kv
    by_cases hk : k1 = k
    · simp [dictSet, hk]
    · simp only [dictGet, if_neg hk] at h
      simp [dictSet, if_neg hk, ih h]

theorem keys_set_absent (d : List (Nat × WorkItem)) (k : Nat) (v : WorkItem)
    (h : dictGet d k = none) :
    (dictSet d k v).map Prod.fst = d.map Prod.fst ++ [k] := by
  induction d with
  | nil => simp [dictSet]
  | cons kv rest ih =>
    obtain ⟨k1, v1⟩ := kv
    by_cases hk : k1 = k
    · simp [dictGet, hk] at h
    · simp only [dictGet, if_neg hk] at h
      simp [dictSet, if_neg hk, ih h]

theorem dictDel_sublist (d : List (Nat × WorkItem)) (k : Nat) :
    (dictDel d k).Sublist d := by
  induction d with
  | nil => simp [dictDel]
  | cons kv rest ih =>
    obtain ⟨k1, v1⟩ := kv
    by_cases hk : k1 = k
    · simp only [dictDel, if_pos hk]
      exact ih.cons _
    · simp only [dictDel, if_neg hk]
      exact ih.cons₂ _

theorem dictGet_of_mem {d : List (Nat × WorkItem)} {k : Nat} {v : WorkItem}
    (hnd : (d.map Prod.fst).Nodup) (h : (k, v) ∈ d) : dictGet d k = some v := by
  induction d with
  | nil => simp at h
  | cons kv rest ih =>
    obtain ⟨k1, v1⟩ := kv
    rw [List.map_cons, List.nodup_cons] at hnd
    rcases List.mem_cons.mp h with h1 | h1
    · cases h1
      simp [dictGet]
    · have hk : k1 ≠ k := by
        intro hkk
        exact hnd.1 (hkk ▸ (List.mem_map.mpr ⟨(k, v), h1, rfl⟩))
      rw [dictGet, if_neg hk]
      exact ih hnd.2 h1

/-! ## Invariant form conversions -/

theorem boardInvL_of_boardInv {b : WorkBoard} (h : boardInv b) : boardInvL b := by
  obtain ⟨h1, h2, h3, h4, h5⟩ := h
  refine ⟨h1, ?_, ?_, ?_, ?_⟩
  · intro k it hk
    exact (h2 _ (mem_of_dictGet hk)).symm
  · intro k it hk
    exact h3 _ (mem_of_dictGet hk)
  · intro k it hk
    exact h4 _ (mem_of_dictGet hk)
  · intro ka A kb B ha hb
    exact h5 _ (mem_of_dictGet ha) _ (mem_of_dictGet hb)

theorem boardLinkSymmetric_of_boardInvL {b : WorkBoard} (h : boardInvL b) :
    BoardLinkSymmetric b := by
  obtain ⟨h1, h2, _, _, h5⟩ := h
  intro kvA hA kvB hB
  obtain ⟨ka, A⟩ := kvA
  obtain ⟨kb, B⟩ := kvB
  have ga : dictGet b.work_items ka = some A := dictGet_of_mem h1 hA
  have gb : dictGet b.work_items kb = some B := dictGet_of_mem h1 hB
  have hia := h2 ka A ga
  have hib := h2 kb B gb
  simp only
  rw [hia, hib]
  exact h5 ka A kb B ga gb

/-- Record rebuilding with the stored value of `parent_id` is the
identity. -/
theorem withParent_self {it : WorkItem} {p : Option Nat} (h : it.parent_id = p) :
    ({ it with parent_id := p } : WorkItem) = it := by
  cases it
  cases h
  rfl

theorem getItem_set_self (b : WorkBoard) (k : Nat) (v : WorkItem) :
    dictGet (b.setItem k v).work_items k = some v := dictGet_set_self _ _ _

theorem getItem_set_ne (b : WorkBoard) {k k' : Nat} (v : WorkItem) (h : k' ≠ k) :
    dictGet (b.setItem k v).work_items k' = dictGet b.work_items k' := dictGet_set_ne _ _ h

theorem getItem_del_self (b : WorkBoard) (k : Nat) :
    dictGet (b.delItem k).work_items k = none := dictGet_del_self _ _

theorem getItem_del_ne (b : WorkBoard) {k k' : Nat} (h : k' ≠ k) :
    dictGet (b.delItem k).work_items k' = dictGet b.work_items k' := dictGet_del_ne _ h


/-! ## Operation characterizations used by the invariant proofs -/

/-- Record rebuilding with the stored value of `children_ids` is the
identity. -/
theorem withChildren_self {it : WorkItem} {l : List Nat} (h : it.children_ids = l) :
    ({ it with children_ids := l } : WorkItem) = it := by
  cases it
  cases h
  rfl

/-- Two boards with the same keys and the same lookups satisfy the same
invariant. -/
theorem boardInvL_congr {b b' : WorkBoard}
    (hk : b'.work_items.map Prod.fst = b.work_items.map Prod.fst)
    (h : ∀ k, dictGet b'.work_items k = dictGet b.work_items k) :
    boardInvL b → boardInvL b' := by
  rintro ⟨h1, h2, h3, h4, h5⟩
  refine ⟨?_, ?_, ?_, ?_, ?_⟩
  · unfold KeysNodup at h1 ⊢
    rw [hk]
    exact h1
  · intro k it hkit
    exact h2 k it (by rw [← h k]; exact hkit)
  · intro k it hkit
    exact h3 k it (by rw [← h k]; exact hkit)
  · intro k it hkit
    obtain ⟨hp, hc⟩ := h4 k it (by rw [← h k]; exact hkit)
    exact ⟨fun q hq => by rw [h q]; exact hp q hq, fun x hx => by rw [h x]; exact hc x hx⟩
  · intro ka A kb B ha hb
    exact h5 ka A kb B (by rw [← h ka]; exact ha) (by rw [← h kb]; exact hb)

/-- Successful `unlink_parent_and_child`, as an explicit result board. -/
theorem unlink_char (b : WorkBoard) (p c : Nat) (P C : WorkItem)
    (hP : dictGet b.work_items p = some P) (hC : dictGet b.work_items c = some C)
    (hmem : c ∈ P.children_ids) :
    b.unlink_parent_and_child p c =
      (none,
        (b.setItem p { P with children_ids := P.children_ids.erase c }).setItem c
          ((if p = c then { P with children_ids := P.children_ids.erase c } else C).remove_parent)) := by
  by_cases hpc : p = c
  · subst hpc
    obtain rfl : P = C := by
      rw [hP] at hC
      exact Option.some.inj hC
    simp [WorkBoard.unlink_parent_and_child, WorkBoard.find_work_item, hP,
      WorkItem.remove_child, hmem, getItem_set_self]
  · simp [WorkBoard.unlink_parent_and_child, WorkBoard.find_work_item, hP, hC,
      WorkItem.remove_child, hmem, getItem_set_ne _ _ (Ne.symm hpc), hpc]

/-- The delete loop `unlinkChildren`, characterized: over the recorded
children list of `pid` (duplicate-free, each child on the board and
distinct from `pid`) it succeeds, empties the `pid` entry's children,
clears each listed child's parent pointer, and touches nothing else. -/
theorem unlinkChildren_char (pid : Nat) (l : List Nat) :
    ∀ (b' : WorkBoard) (it : WorkItem),
      dictGet b'.work_items pid = some it →
      it.children_ids = l →
      l.Nodup →
      (∀ x ∈ l, x ≠ pid ∧ (dictGet b'.work_items x).isSome = true) →
      (WorkBoard.unlinkChildren pid b' l).1 = none ∧
      dictGet (WorkBoard.unlinkChildren pid b' l).2.work_items pid =
        some { it with children_ids := [] } ∧
      (∀ k, k ≠ pid →
        dictGet (WorkBoard.unlinkChildren pid b' l).2.work_items k =
          if k ∈ l then
            (dictGet b'.work_items k).map (fun x => { x with parent_id := none })
          else dictGet b'.work_items k) ∧
      (WorkBoard.unlinkChildren pid b' l).2.work_items.map Prod.fst =
        b'.work_items.map Prod.fst := by
  induction l with
  | nil =>
    intro b' it hit hch hnd hok
    refine ⟨rfl, ?_, fun k hk => by simp [WorkBoard.unlinkChildren], rfl⟩
    have hnil : WorkBoard.unlinkChildren pid b' [] = (none, b') := rfl
    rw [hnil, withChildren_self hch]
    exact hit
  | cons c rest ih =>
    intro b' it hit hch hnd hok
    obtain ⟨hcne, hcsome⟩ := hok c (List.mem_cons_self _ _)
    obtain ⟨C, hCget⟩ : ∃ C, dictGet b'.work_items c = some C := by
      rcases hg : dictGet b'.work_items c with _ | C
      · rw [hg] at hcsome
        simp at hcsome
      · exact ⟨C, rfl⟩
    have hcmem : c ∈ it.children_ids := by
      rw [hch]
      exact List.mem_cons_self _ _
    have hunlink := unlink_char b' pid c it C hit hCget hcmem
    rw [if_neg (Ne.symm hcne)] at hunlink
    have herase : it.children_ids.erase c = rest := by
      rw [hch]
      exact List.erase_cons_head _ _
    rw [herase] at hunlink
    have hstep : WorkBoard.unlinkChildren pid b' (c :: rest) =
        WorkBoard.unlinkChildren pid
          ((b'.setItem pid { it with children_ids := rest }).setItem c C.remove_parent) rest := by
      simp only [WorkBoard.unlinkChildren]
      rw [hunlink]
    set bB := (b'.setItem pid { it with children_ids := rest }).setItem c C.remove_parent with hbB
    have hBpid : dictGet bB.work_items pid = some { it with children_ids := rest } := by
      rw [hbB, getItem_set_ne _ _ (Ne.symm hcne), getItem_set_self]
    have hih := ih bB { it with children_ids := rest } hBpid rfl (List.Nodup.of_cons hnd) ?hok2
    case hok2 =>
      intro x hx
      obtain ⟨hxne, hxsome⟩ := hok x (List.mem_cons_of_mem _ hx)
      have hxc : x ≠ c := by
        intro hh
        subst hh
        exact (List.nodup_cons.mp hnd).1 hx
      refine ⟨hxne, ?_⟩
      rw [hbB, getItem_set_ne _ _ hxc, getItem_set_ne _ _ hxne]
      exact hxsome
    obtain ⟨hres1, hres2, hres3, hres4⟩ := hih
    rw [hstep]
    refine ⟨hres1, ?_, ?_, ?_⟩
    · rw [hres2]
    · intro k hk
      by_cases hkc : k = c
      · subst hkc
        have hkrest : k ∉ rest := (List.nodup_cons.mp hnd).1
        rw [hres3 k hk, if_neg hkrest, if_pos (List.mem_cons_self _ _), hCget]
        rw [hbB, getItem_set_self]
        rfl
      · have hbBk : dictGet bB.work_items k = dictGet b'.work_items k := by
          rw [hbB, getItem_set_ne _ _ hkc, getItem_set_ne _ _ hk]
        rw [hres3 k hk, hbBk]
        by_cases hkr : k ∈ rest
        · rw [if_pos hkr, if_pos (List.mem_cons_of_mem _ hkr)]
        · rw [if_neg hkr, if_neg (by simp [hkc, hkr])]
    · have hc1 : (dictGet (dictSet b'.work_items pid { it with children_ids := rest }) c).isSome
          = true := by
        rw [dictGet_set_ne _ _ hcne, hCget]
        rfl
      have hp1 : (dictGet b'.work_items pid).isSome = true := by
        rw [hit]
        rfl
      rw [hres4]
      simp only [hbB, WorkBoard.setItem]
      rw [keys_set_present _ _ _ hc1, keys_set_present _ _ _ hp1]


/-- Mapping a children-field rebuild whose condition fails is the
identity on an optional item. -/
theorem map_children_eta {o : Option WorkItem} {cnd : Prop} [Decidable cnd] {id : Nat}
    (h : ¬ cnd) :
    o.map (fun it =>
      { it with children_ids := if cnd then it.children_ids.erase id else it.children_ids }) = o := by
  rcases o with _ | v
  · rfl
  · simp [if_neg h]

/-- Phase one of `delete_work_item` (the parent-side unlink) on an
invariant-satisfying board: it succeeds and only erases the deleted id
from its parent's children (while the deleted entry's live children list
becomes `deleteChildren X id`). -/
theorem delete_phaseA (b : WorkBoard) (id : Nat) (X : WorkItem)
    (hinv : boardInvL b) (hX : dictGet b.work_items id = some X) :
    ∃ bA XA,
      (match X.parent_id with
       | some pid => b.unlink_parent_and_child pid id
       | none => (none, b)) = (none, bA) ∧
      dictGet bA.work_items id = some XA ∧
      XA.children_ids = deleteChildren X id ∧
      bA.work_items.map Prod.fst = b.work_items.map Prod.fst ∧
      (∀ k, k ≠ id → dictGet bA.work_items k =
        (dictGet b.work_items k).map (fun it =>
          { it with children_ids := if X.parent_id = some k then it.children_ids.erase id
                                    else it.children_ids })) := by
  obtain ⟨hnd, hwk, hcn, hdang, hsym⟩ := hinv
  rcases hpar : X.parent_id with _ | pid
  · refine ⟨b, X, rfl, hX, by simp [deleteChildren, hpar], rfl, ?_⟩
    intro k hk
    exact (map_children_eta (fun hh => Option.noConfusion hh)).symm
  · have hpidsome : (dictGet b.work_items pid).isSome = true :=
      (hdang id X hX).1 pid (by rw [hpar]; rfl)
    obtain ⟨P, hPget⟩ : ∃ P, dictGet b.work_items pid = some P := by
      rcases hg : dictGet b.work_items pid with _ | P
      · rw [hg] at hpidsome
        simp at hpidsome
      · exact ⟨P, rfl⟩
    have hpmem : id ∈ P.children_ids := (hsym pid P id X hPget hX).mpr hpar
    have hA := unlink_char b pid id P X hPget hX hpmem
    by_cases hpidid : pid = id
    · subst hpidid
      obtain rfl : X = P := by
        rw [hX] at hPget
        exact Option.some.inj hPget
      rw [if_pos rfl] at hA
      refine ⟨_, _, hA, getItem_set_self _ _ _, ?_, ?_, ?_⟩
      · simp [deleteChildren, hpar, WorkItem.remove_parent]
      · simp only [WorkBoard.setItem]
        rw [keys_set_present, keys_set_present]
        · rw [hX]
          rfl
        · rw [dictGet_set_self]
          rfl
      · intro k hk
        rw [getItem_set_ne _ _ hk, getItem_set_ne _ _ hk]
        exact (map_children_eta (fun hh => hk (Option.some.inj hh).symm)).symm
    · rw [if_neg hpidid] at hA
      refine ⟨_, _, hA, getItem_set_self _ _ _, ?_, ?_, ?_⟩
      · simp [deleteChildren, hpar, hpidid, WorkItem.remove_parent]
      · simp only [WorkBoard.setItem]
        rw [keys_set_present, keys_set_present]
        · rw [hPget]
          rfl
        · rw [dictGet_set_ne _ _ (fun hh => hpidid hh.symm), hX]
          rfl
      · intro k hk
        rw [getItem_set_ne _ _ hk]
        by_cases hkpid : k = pid
        · subst hkpid
          rw [getItem_set_self, hPget]
          simp [hpar]
        · rw [getItem_set_ne _ _ hkpid]
          exact (map_children_eta (fun hh => hkpid (Option.some.inj hh).symm)).symm

/-- `delete_work_item` on an invariant-satisfying board, characterized:
it succeeds, removes the entry, erases the deleted id from its parent's
children, clears the parent pointer of every live child, touches nothing
else, and keeps the keys duplicate-free. -/
theorem delete_char (b : WorkBoard) (id : Nat) (X : WorkItem)
    (hinv : boardInvL b) (hX : dictGet b.work_items id = some X) :
    (b.delete_work_item id).1 = none ∧
    dictGet (b.delete_work_item id).2.work_items id = none ∧
    (∀ k, k ≠ id →
      dictGet (b.delete_work_item id).2.work_items k =
        (dictGet b.work_items k).map (fun it =>
          { it with
              parent_id := if k ∈ deleteChildren X id then none else it.parent_id,
              children_ids := if X.parent_id = some k then it.children_ids.erase id
                              else it.children_ids })) ∧
    ((b.delete_work_item id).2.work_items.map Prod.fst).Nodup := by
  obtain ⟨bA, XA, hA, hAid, hAch, hAkeys, hAk⟩ := delete_phaseA b id X hinv hX
  obtain ⟨hnd, hwk, hcn, hdang, hsym⟩ := hinv
  have hsubch : ∀ x ∈ deleteChildren X id, x ∈ X.children_ids := by
    intro x hx
    unfold deleteChildren at hx
    by_cases hp : X.parent_id = some id
    · rw [if_pos hp] at hx
      exact List.mem_of_mem_erase hx
    · rw [if_neg hp] at hx
      exact hx
  have hxid : ∀ x ∈ deleteChildren X id, x ≠ id := by
    intro x hx
    by_cases hp : X.parent_id = some id
    · unfold deleteChildren at hx
      rw [if_pos hp] at hx
      exact (((hcn id X hX).mem_erase_iff).mp hx).1
    · have hnid : id ∉ X.children_ids := fun hmem => hp ((hsym id X id X hX hX).mp hmem)
      intro hxeq
      exact hnid (hxeq ▸ hsubch x hx)
  have hnodupdc : (deleteChildren X id).Nodup := by
    unfold deleteChildren
    by_cases hp : X.parent_id = some id
    · rw [if_pos hp]
      exact (hcn id X hX).erase _
    · rw [if_neg hp]
      exact hcn id X hX
  have hok : ∀ x ∈ deleteChildren X id, x ≠ id ∧ (dictGet bA.work_items x).isSome = true := by
    intro x hx
    refine ⟨hxid x hx, ?_⟩
    rw [dictGet_isSome_iff, hAkeys, ← dictGet_isSome_iff]
    exact (hdang id X hX).2 x (hsubch x hx)
  obtain ⟨hr1, hr2, hr3, hr4⟩ :=
    unlinkChildren_char id (deleteChildren X id) bA XA hAid hAch hnodupdc hok
  have hsplitL : WorkBoard.unlinkChildren id bA (deleteChildren X id) =
      (none, (WorkBoard.unlinkChildren id bA (deleteChildren X id)).2) := by
    rw [← hr1]
  have hdel : b.delete_work_item id =
      (none, (WorkBoard.unlinkChildren id bA (deleteChildren X id)).2.delItem id) := by
    simp only [WorkBoard.delete_work_item, WorkBoard.find_work_item, hX, hA, hAid, hAch]
    rw [hsplitL]
  refine ⟨by rw [hdel], by rw [hdel]; exact getItem_del_self _ _, ?_, ?_⟩
  · intro k hk
    rw [hdel]
    rw [getItem_del_ne _ hk, hr3 k hk, hAk k hk]
    by_cases hkdc : k ∈ deleteChildren X id
    · rw [if_pos hkdc]
      rcases hbk : dictGet b.work_items k with _ | v
      · rfl
      · obtain ⟨i1, w1, c1, p1, ch1, s1, t1, d1⟩ := v
        simp [hkdc]
    · rw [if_neg hkdc]
      rcases hbk : dictGet b.work_items k with _ | v
      · rfl
      · obtain ⟨i1, w1, c1, p1, ch1, s1, t1, d1⟩ := v
        simp [hkdc]
  · rw [hdel]
    have hndb : (b.work_items.map Prod.fst).Nodup := hnd
    have hkeys2 : (WorkBoard.unlinkChildren id bA (deleteChildren X id)).2.work_items.map Prod.fst
        = b.work_items.map Prod.fst := by
      rw [hr4, hAkeys]
    rw [← hkeys2] at hndb
    exact List.Nodup.sublist (List.Sublist.map _ (dictDel_sublist _ _)) hndb


/-! ## Invariant preservation machinery (C1) -/

theorem deleteChildren_subset (X : WorkItem) (id : Nat) :
    ∀ x ∈ deleteChildren X id, x ∈ X.children_ids := by
  intro x hx
  unfold deleteChildren at hx
  by_cases hp : X.parent_id = some id
  · rw [if_pos hp] at hx
    exact List.mem_of_mem_erase hx
  · rw [if_neg hp] at hx
    exact hx

theorem mem_deleteChildren (X : WorkItem) (id : Nat) {k : Nat}
    (hk : k ∈ X.children_ids) (hne : k ≠ id) : k ∈ deleteChildren X id := by
  unfold deleteChildren
  by_cases hp : X.parent_id = some id
  · rw [if_pos hp]
    exact (List.mem_erase_of_ne hne).mpr hk
  · rw [if_neg hp]
    exact hk

/-- A board whose keys agree with `b` and whose entries are a pointwise
transformation of `b`'s satisfies the invariant when the transformation
does. -/
theorem invL_pointwise (b b' : WorkBoard) (f : Nat → WorkItem → WorkItem)
    (hkeys : b'.work_items.map Prod.fst = b.work_items.map Prod.fst)
    (hget : ∀ k, dictGet b'.work_items k = (dictGet b.work_items k).map (f k))
    (hinv : boardInvL b)
    (hid : ∀ k it, dictGet b.work_items k = some it → (f k it).id = it.id)
    (hch : ∀ k it, dictGet b.work_items k = some it → (f k it).children_ids.Nodup)
    (hdang2 : ∀ k it, dictGet b.work_items k = some it →
      (∀ q ∈ (f k it).parent_id, (dictGet b.work_items q).isSome = true) ∧
      (∀ x ∈ (f k it).children_ids, (dictGet b.work_items x).isSome = true))
    (hsym2 : ∀ ka A kb B, dictGet b.work_items ka = some A →
      dictGet b.work_items kb = some B →
      (kb ∈ (f ka A).children_ids ↔ (f kb B).parent_id = some ka)) :
    boardInvL b' := by
  obtain ⟨hnd, hwk, hcn, hdang, hsym⟩ := hinv
  have hsome2 : ∀ x, (dictGet b'.work_items x).isSome = (dictGet b.work_items x).isSome := by
    intro x
    rw [hget x]
    rcases dictGet b.work_items x with _ | v <;> rfl
  have hlook : ∀ k it, dictGet b'.work_items k = some it →
      ∃ v, dictGet b.work_items k = some v ∧ it = f k v := by
    intro k it hkit
    rw [hget k] at hkit
    rcases hv : dictGet b.work_items k with _ | v
    · rw [hv] at hkit
      exact Option.noConfusion hkit
    · rw [hv] at hkit
      exact ⟨v, rfl, (Option.some.inj hkit).symm⟩
  refine ⟨?_, ?_, ?_, ?_, ?_⟩
  · unfold KeysNodup at *
    rw [hkeys]
    exact hnd
  · intro k it hkit
    obtain ⟨v, hv, rfl⟩ := hlook k it hkit
    rw [hid k v hv]
    exact hwk k v hv
  · intro k it hkit
    obtain ⟨v, hv, rfl⟩ := hlook k it hkit
    exact hch k v hv
  · intro k it hkit
    obtain ⟨v, hv, rfl⟩ := hlook k it hkit
    obtain ⟨h1, h2⟩ := hdang2 k v hv
    refine ⟨fun q hq => ?_, fun x hx => ?_⟩
    · rw [hsome2 q]
      exact h1 q hq
    · rw [hsome2 x]
      exact h2 x hx
  · intro ka A kb B hA hB
    obtain ⟨a, hva, rfl⟩ := hlook ka A hA
    obtain ⟨v, hvb, rfl⟩ := hlook kb B hB
    exact hsym2 ka a kb v hva hvb

/-- Successful appending `link_parent_and_child` (child not yet linked,
parent below capacity), as an explicit result board. -/
theorem link_char_append (b : WorkBoard) (p c : Nat) (P C : WorkItem)
    (hP : dictGet b.work_items p = some P) (hC : dictGet b.work_items c = some C)
    (hmem : c ∉ P.children_ids) (hlen : P.children_ids.length < 100) :
    b.link_parent_and_child p c =
      (none, (b.setItem c (C.add_parent p)).setItem p
        { (if p = c then C.add_parent p else P) with
            children_ids := P.children_ids ++ [c] }) := by
  by_cases hpc : p = c
  · subst hpc
    obtain rfl : P = C := by
      rw [hP] at hC
      exact Option.some.inj hC
    simp [WorkBoard.link_parent_and_child, WorkBoard.find_work_item, hP,
      getItem_set_self, WorkItem.add_child, WorkItem.add_parent, hmem,
      Nat.not_le.mpr hlen]
  · simp [WorkBoard.link_parent_and_child, WorkBoard.find_work_item, hP, hC,
      getItem_set_ne _ _ hpc, WorkItem.add_child, hmem, Nat.not_le.mpr hlen, hpc]

/-- `link_parent_and_child` of an already-present link does not change
any lookup (the child's parent is rewritten with the value it already
has, the parent-side add is a no-op). -/
theorem link_noop_lookups (b : WorkBoard) (p c : Nat) (P C : WorkItem)
    (hP : dictGet b.work_items p = some P) (hC : dictGet b.work_items c = some C)
    (hmem : c ∈ P.children_ids) (hCpar : C.parent_id = some p) :
    (b.link_parent_and_child p c).1 = none ∧
    (∀ k, dictGet (b.link_parent_and_child p c).2.work_items k = dictGet b.work_items k) ∧
    (b.link_parent_and_child p c).2.work_items.map Prod.fst = b.work_items.map Prod.fst := by
  have haddpar : C.add_parent p = C := withParent_self hCpar
  have hchar : b.link_parent_and_child p c =
      (none, (b.setItem c C).setItem p (if p = c then C else P)) := by
    by_cases hpc : p = c
    · subst hpc
      obtain rfl : P = C := by
        rw [hP] at hC
        exact Option.some.inj hC
      simp [WorkBoard.link_parent_and_child, WorkBoard.find_work_item, hP,
        getItem_set_self, haddpar, WorkItem.add_child, hmem]
    · simp [WorkBoard.link_parent_and_child, WorkBoard.find_work_item, hP, hC,
        getItem_set_ne _ _ hpc, haddpar, WorkItem.add_child, hmem, hpc]
  rw [hchar]
  refine ⟨rfl, ?_, ?_⟩
  · intro k
    by_cases hkp : k = p
    · subst hkp
      rw [getItem_set_self]
      by_cases hpc : k = c
      · subst hpc
        rw [if_pos rfl, hC]
      · rw [if_neg hpc, hP]
    · rw [getItem_set_ne _ _ hkp]
      by_cases hkc : k = c
      · subst hkc
        rw [getItem_set_self, hC]
      · rw [getItem_set_ne _ _ hkc]
  · simp only [WorkBoard.setItem]
    rw [keys_set_present, keys_set_present]
    · rw [hC]
      rfl
    · by_cases hpc : p = c
      · subst hpc
        rw [dictGet_set_self]
        rfl
      · rw [dictGet_set_ne _ _ hpc, hP]
        rfl

theorem inv_empty (i t : Nat) (n d : String) :
    boardInvL { id := i, created_at := t, name := n, description := d, work_items := [] } := by
  refine ⟨?_, ?_, ?_, ?_, ?_⟩
  · simp [KeysNodup]
  · intro k it h
    exact Option.noConfusion h
  · intro k it h
    exact Option.noConfusion h
  · intro k it h
    exact Option.noConfusion h
  · intro ka A kb B ha hb
    exact Option.noConfusion ha


/-- Guarded `unlink_parent_and_child` preserves the invariant. -/
theorem inv_unlink (b : WorkBoard) (p c : Nat)
    (hinv : boardInvL b)
    (hP : ∃ P, dictGet b.work_items p = some P ∧ c ∈ P.children_ids)
    (hC : (dictGet b.work_items c).isSome = true) :
    boardInvL (b.unlink_parent_and_child p c).2 := by
  obtain ⟨P, hPget, hmem⟩ := hP
  obtain ⟨C, hCget⟩ := Option.isSome_iff_exists.mp hC
  have hinv2 := hinv
  obtain ⟨hnd, hwk, hcn, hdang, hsym⟩ := hinv2
  have hCpar : C.parent_id = some p := (hsym p P c C hPget hCget).mp hmem
  have hchar := unlink_char b p c P C hPget hCget hmem
  rw [hchar]
  refine invL_pointwise b _ (unlinkTransform p c) ?_ ?_ hinv ?_ ?_ ?_ ?_
  · simp only [WorkBoard.setItem]
    rw [keys_set_present, keys_set_present]
    · rw [hPget]
      rfl
    · by_cases hpc : p = c
      · subst hpc
        rw [dictGet_set_self]
        rfl
      · rw [dictGet_set_ne _ _ (Ne.symm hpc), hCget]
        rfl
  · intro k
    by_cases hkc : k = c
    · subst hkc
      rw [getItem_set_self, hCget]
      by_cases hpc : p = k
      · subst hpc
        obtain rfl : P = C := by
          rw [hPget] at hCget
          exact Option.some.inj hCget
        simp [unlinkTransform, WorkItem.remove_parent]
      · rw [if_neg hpc]
        have hkp2 : ¬ (k = p) := fun hh => hpc hh.symm
        simp [unlinkTransform, WorkItem.remove_parent, hkp2]
    · rw [getItem_set_ne _ _ hkc]
      by_cases hkp : k = p
      · subst hkp
        rw [getItem_set_self, hPget]
        have hkc2 : ¬ (k = c) := hkc
        simp [unlinkTransform, hkc2]
      · rw [getItem_set_ne _ _ hkp]
        rcases hv : dictGet b.work_items k with _ | v
        · rfl
        · simp [unlinkTransform, hkc, hkp]
  · intro k it _
    rfl
  · intro k it hv
    show (if k = p then it.children_ids.erase c else it.children_ids).Nodup
    by_cases hkp : k = p
    · rw [if_pos hkp]
      exact (hcn k it hv).erase _
    · rw [if_neg hkp]
      exact hcn k it hv
  · intro k it hv
    constructor
    · intro q hq
      have hq2 : q ∈ (if k = c then none else it.parent_id) := hq
      by_cases hkc : k = c
      · rw [if_pos hkc] at hq2
        simp at hq2
      · rw [if_neg hkc] at hq2
        exact (hdang k it hv).1 q hq2
    · intro x hx
      have hx2 : x ∈ (if k = p then it.children_ids.erase c else it.children_ids) := hx
      by_cases hkp : k = p
      · rw [if_pos hkp] at hx2
        exact (hdang k it hv).2 x (List.mem_of_mem_erase hx2)
      · rw [if_neg hkp] at hx2
        exact (hdang k it hv).2 x hx2
  · intro ka A kb B hva hvb
    show kb ∈ (if ka = p then A.children_ids.erase c else A.children_ids) ↔
      (if kb = c then none else B.parent_id) = some ka
    by_cases hkbc : kb = c
    · subst hkbc
      rw [if_pos rfl]
      refine iff_of_false ?_ (fun hh => Option.noConfusion hh)
      intro hmm
      by_cases hkap : ka = p
      · subst hkap
        obtain rfl : A = P := by
          rw [hva] at hPget
          exact Option.some.inj hPget
        rw [if_pos rfl] at hmm
        exact (hcn ka A hva).not_mem_erase hmm
      · rw [if_neg hkap] at hmm
        have h5 := (hsym ka A kb C hva hCget).mp hmm
        rw [hCpar] at h5
        exact hkap (Option.some.inj h5).symm
    · rw [if_neg hkbc]
      have hold := hsym ka A kb B hva hvb
      have hLHS : kb ∈ (if ka = p then A.children_ids.erase c else A.children_ids) ↔
          kb ∈ A.children_ids := by
        by_cases hkap : ka = p
        · rw [if_pos hkap]
          exact List.mem_erase_of_ne hkbc
        · rw [if_neg hkap]
      rw [hLHS]
      exact hold

/-- Guarded `link_parent_and_child` preserves the invariant. -/
theorem inv_link (b : WorkBoard) (p c : Nat)
    (hinv : boardInvL b)
    (hP : ∃ P, dictGet b.work_items p = some P ∧
      (c ∈ P.children_ids ∨ P.children_ids.length < 100))
    (hC : ∃ C, dictGet b.work_items c = some C ∧
      (C.parent_id = none ∨ C.parent_id = some p)) :
    boardInvL (b.link_parent_and_child p c).2 := by
  obtain ⟨P, hPget, hPor⟩ := hP
  obtain ⟨C, hCget, hCor⟩ := hC
  have hinv2 := hinv
  obtain ⟨hnd, hwk, hcn, hdang, hsym⟩ := hinv2
  by_cases hmem : c ∈ P.children_ids
  · have hCpar : C.parent_id = some p := (hsym p P c C hPget hCget).mp hmem
    obtain ⟨h1, h2, h3⟩ := link_noop_lookups b p c P C hPget hCget hmem hCpar
    exact boardInvL_congr h3 h2 hinv
  · have hCnone : C.parent_id = none := by
      rcases hCor with h | h
      · exact h
      · exact absurd ((hsym p P c C hPget hCget).mpr h) hmem
    have hlen : P.children_ids.length < 100 := by
      rcases hPor with h | h
      · exact absurd h hmem
      · exact h
    have hchar := link_char_append b p c P C hPget hCget hmem hlen
    rw [hchar]
    refine invL_pointwise b _ (linkTransform p c) ?_ ?_ hinv ?_ ?_ ?_ ?_
    · simp only [WorkBoard.setItem]
      rw [keys_set_present, keys_set_present]
      · rw [hCget]
        rfl
      · by_cases hpc : p = c
        · subst hpc
          rw [dictGet_set_self]
          rfl
        · rw [dictGet_set_ne _ _ hpc, hPget]
          rfl
    · intro k
      by_cases hkp : k = p
      · subst hkp
        rw [getItem_set_self, hPget]
        by_cases hpc : k = c
        · subst hpc
          obtain rfl : P = C := by
            rw [hPget] at hCget
            exact Option.some.inj hCget
          simp [linkTransform, WorkItem.add_parent]
        · rw [if_neg hpc]
          simp [linkTransform, hpc]
      · rw [getItem_set_ne _ _ hkp]
        by_cases hkc : k = c
        · subst hkc
          rw [getItem_set_self, hCget]
          simp [linkTransform, WorkItem.add_parent, hkp]
        · rw [getItem_set_ne _ _ hkc]
          rcases hv : dictGet b.work_items k with _ | v
          · rfl
          · simp [linkTransform, hkc, hkp]
    · intro k it _
      rfl
    · intro k it hv
      show (if k = p then it.children_ids ++ [c] else it.children_ids).Nodup
      by_cases hkp : k = p
      · subst hkp
        obtain rfl : it = P := by
          rw [hv] at hPget
          exact Option.some.inj hPget
        rw [if_pos rfl]
        exact (hcn k it hv).append (List.nodup_singleton c)
          (List.disjoint_singleton.mpr hmem)
      · rw [if_neg hkp]
        exact hcn k it hv
    · intro k it hv
      constructor
      · intro q hq
        have hq2 : q ∈ (if k = c then some p else it.parent_id) := hq
        by_cases hkc : k = c
        · rw [if_pos hkc] at hq2
          obtain rfl : p = q := by simpa using hq2
          rw [hPget]
          rfl
        · rw [if_neg hkc] at hq2
          exact (hdang k it hv).1 q hq2
      · intro x hx
        have hx2 : x ∈ (if k = p then it.children_ids ++ [c] else it.children_ids) := hx
        by_cases hkp : k = p
        · rw [if_pos hkp] at hx2
          rcases List.mem_append.mp hx2 with h | h
          · exact (hdang k it hv).2 x h
          · obtain rfl : x = c := by simpa using h
            rw [hCget]
            rfl
        · rw [if_neg hkp] at hx2
          exact (hdang k it hv).2 x hx2
    · intro ka A kb B hva hvb
      show kb ∈ (if ka = p then A.children_ids ++ [c] else A.children_ids) ↔
        (if kb = c then some p else B.parent_id) = some ka
      by_cases hkbc : kb = c
      · subst hkbc
        rw [if_pos rfl]
        by_cases hkap : ka = p
        · subst hkap
          rw [if_pos rfl]
          exact iff_of_true (List.mem_append.mpr (Or.inr (by simp))) rfl
        · rw [if_neg hkap]
          refine iff_of_false ?_ (fun hh => hkap (Option.some.inj hh).symm)
          intro hmm
          have h5 := (hsym ka A kb C hva hCget).mp hmm
          rw [hCnone] at h5
          exact Option.noConfusion h5
      · rw [if_neg hkbc]
        have hold := hsym ka A kb B hva hvb
        by_cases hkap : ka = p
        · rw [if_pos hkap]
          constructor
          · intro hmm
            rcases List.mem_append.mp hmm with h | h
            · exact hold.mp h
            · obtain rfl : kb = c := by simpa using h
              exact absurd rfl hkbc
          · intro hmm
            exact List.mem_append.mpr (Or.inl (hold.mpr hmm))
        · rw [if_neg hkap]
          exact hold


/-- Guarded `add_work_item` (fresh id, no preset children, preset parent
resolving with spare capacity) preserves the invariant. -/
theorem inv_add (b : WorkBoard) (item : WorkItem)
    (hinv : boardInvL b)
    (hcap : b.work_items.length < 5000)
    (hfresh : dictGet b.work_items item.id = none)
    (hch : item.children_ids = [])
    (hpar : ∀ pid ∈ item.parent_id,
      ∃ P, dictGet b.work_items pid = some P ∧ P.children_ids.length < 100) :
    boardInvL (b.add_work_item item).2 := by
  obtain ⟨hnd, hwk, hcn, hdang, hsym⟩ := hinv
  have hfresh2 : ∀ k it, dictGet b.work_items k = some it →
      item.id ∉ it.children_ids ∧ it.parent_id ≠ some item.id := by
    intro k it hv
    constructor
    · intro hmm
      have h6 := (hdang k it hv).2 item.id hmm
      rw [hfresh] at h6
      exact Bool.noConfusion h6
    · intro hmm
      have h6 := (hdang k it hv).1 item.id hmm
      rw [hfresh] at h6
      exact Bool.noConfusion h6
  rcases hp : item.parent_id with _ | pid
  · have hchar : b.add_work_item item = (none, b.setItem item.id item) := by
      simp [WorkBoard.add_work_item, Nat.not_le.mpr hcap, hp, hch, WorkBoard.linkChildren]
    rw [hchar]
    have hget : ∀ k, dictGet (b.setItem item.id item).work_items k =
        if k = item.id then some item else dictGet b.work_items k := by
      intro k
      by_cases hk : k = item.id
      · subst hk
        rw [getItem_set_self, if_pos rfl]
      · rw [getItem_set_ne _ _ hk, if_neg hk]
    have hsome2 : ∀ x, (dictGet (b.setItem item.id item).work_items x).isSome = true ↔
        (x = item.id ∨ (dictGet b.work_items x).isSome = true) := by
      intro x
      rw [hget x]
      by_cases hx : x = item.id
      · simp [hx]
      · simp [hx]
    refine ⟨?_, ?_, ?_, ?_, ?_⟩
    · unfold KeysNodup at *
      simp only [WorkBoard.setItem]
      rw [keys_set_absent _ _ _ hfresh, List.nodup_append]
      refine ⟨hnd, List.nodup_singleton _, ?_⟩
      intro a ha hb
      simp only [List.mem_singleton] at hb
      subst hb
      have h6 := (dictGet_isSome_iff b.work_items item.id).mpr ha
      rw [hfresh] at h6
      exact Bool.noConfusion h6
    · intro k it hkit
      rw [hget k] at hkit
      by_cases hk : k = item.id
      · rw [if_pos hk] at hkit
        cases Option.some.inj hkit
        exact hk.symm
      · rw [if_neg hk] at hkit
        exact hwk k it hkit
    · intro k it hkit
      rw [hget k] at hkit
      by_cases hk : k = item.id
      · rw [if_pos hk] at hkit
        cases Option.some.inj hkit
        rw [hch]
        exact List.nodup_nil
      · rw [if_neg hk] at hkit
        exact hcn k it hkit
    · intro k it hkit
      rw [hget k] at hkit
      by_cases hk : k = item.id
      · rw [if_pos hk] at hkit
        cases Option.some.inj hkit
        constructor
        · intro q hq
          rw [hp] at hq
          simp at hq
        · intro x hx
          rw [hch] at hx
          simp at hx
      · rw [if_neg hk] at hkit
        obtain ⟨h1, h2⟩ := hdang k it hkit
        refine ⟨fun q hq => ?_, fun x hx => ?_⟩
        · rw [hsome2 q]
          exact Or.inr (h1 q hq)
        · rw [hsome2 x]
          exact Or.inr (h2 x hx)
    · intro ka A kb B hA hB
      rw [hget ka] at hA
      rw [hget kb] at hB
      by_cases hka : ka = item.id
      · rw [if_pos hka] at hA
        cases Option.some.inj hA
        by_cases hkb : kb = item.id
        · rw [if_pos hkb] at hB
          cases Option.some.inj hB
          rw [hch, hp]
          simp
        · rw [if_neg hkb] at hB
          subst hka
          rw [hch]
          refine iff_of_false (by simp) ?_
          intro hmm
          exact (hfresh2 kb B hB).2 hmm
      · rw [if_neg hka] at hA
        by_cases hkb : kb = item.id
        · rw [if_pos hkb] at hB
          cases Option.some.inj hB
          subst hkb
          rw [hp]
          refine iff_of_false ?_ (by simp)
          intro hmm
          exact (hfresh2 ka A hA).1 hmm
        · rw [if_neg hkb] at hB
          exact hsym ka A kb B hA hB
  · obtain ⟨P, hPget, hPlen⟩ := hpar pid (by rw [hp]; rfl)
    have hpne : pid ≠ item.id := by
      intro hh
      rw [hh, hfresh] at hPget
      exact Option.noConfusion hPget
    have hPm : item.id ∉ P.children_ids := (hfresh2 pid P hPget).1
    have hlink := link_char_append (b.setItem item.id item) pid item.id P item
      (by rw [getItem_set_ne _ _ hpne]; exact hPget) (getItem_set_self _ _ _) hPm hPlen
    rw [if_neg hpne] at hlink
    have hchar : b.add_work_item item =
        (none, ((b.setItem item.id item).setItem item.id (item.add_parent pid)).setItem pid
          { P with children_ids := P.children_ids ++ [item.id] }) := by
      simp [WorkBoard.add_work_item, Nat.not_le.mpr hcap, hp, hlink, hch,
        WorkBoard.linkChildren]
    rw [hchar]
    have hget : ∀ k, dictGet (((b.setItem item.id item).setItem item.id
          (item.add_parent pid)).setItem pid
          { P with children_ids := P.children_ids ++ [item.id] }).work_items k =
        if k = pid then some { P with children_ids := P.children_ids ++ [item.id] }
        else if k = item.id then some (item.add_parent pid)
        else dictGet b.work_items k := by
      intro k
      by_cases hk1 : k = pid
      · subst hk1
        rw [getItem_set_self, if_pos rfl]
      · rw [getItem_set_ne _ _ hk1, if_neg hk1]
        by_cases hk2 : k = item.id
        · subst hk2
          rw [getItem_set_self, if_pos rfl]
        · rw [getItem_set_ne _ _ hk2, getItem_set_ne _ _ hk2, if_neg hk2]
    have hsome2 : ∀ x, (dictGet (((b.setItem item.id item).setItem item.id
          (item.add_parent pid)).setItem pid
          { P with children_ids := P.children_ids ++ [item.id] }).work_items x).isSome = true ↔
        (x = item.id ∨ (dictGet b.work_items x).isSome = true) := by
      intro x
      rw [hget x]
      by_cases h1 : x = pid
      · rw [if_pos h1]
        refine iff_of_true rfl (Or.inr ?_)
        rw [h1, hPget]
        rfl
      · rw [if_neg h1]
        by_cases h2 : x = item.id
        · rw [if_pos h2]
          exact iff_of_true rfl (Or.inl h2)
        · rw [if_neg h2]
          simp [h2]
    refine ⟨?_, ?_, ?_, ?_, ?_⟩
    · unfold KeysNodup at *
      simp only [WorkBoard.setItem]
      rw [keys_set_present, keys_set_present, keys_set_absent _ _ _ hfresh]
      · rw [List.nodup_append]
        refine ⟨hnd, List.nodup_singleton _, ?_⟩
        intro a ha hb
        simp only [List.mem_singleton] at hb
        subst hb
        have h6 := (dictGet_isSome_iff b.work_items item.id).mpr ha
        rw [hfresh] at h6
        exact Bool.noConfusion h6
      · rw [dictGet_set_self]
        rfl
      · rw [dictGet_set_ne _ _ hpne, dictGet_set_ne _ _ hpne, hPget]
        rfl
    · intro k it hkit
      rw [hget k] at hkit
      by_cases hk1 : k = pid
      · rw [if_pos hk1] at hkit
        cases Option.some.inj hkit
        rw [hk1]
        exact hwk pid P hPget
      · rw [if_neg hk1] at hkit
        by_cases hk2 : k = item.id
        · rw [if_pos hk2] at hkit
          cases Option.some.inj hkit
          exact hk2.symm
        · rw [if_neg hk2] at hkit
          exact hwk k it hkit
    · intro k it hkit
      rw [hget k] at hkit
      by_cases hk1 : k = pid
      · rw [if_pos hk1] at hkit
        cases Option.some.inj hkit
        exact (hcn pid P hPget).append (List.nodup_singleton _)
          (List.disjoint_singleton.mpr hPm)
      · rw [if_neg hk1] at hkit
        by_cases hk2 : k = item.id
        · rw [if_pos hk2] at hkit
          cases Option.some.inj hkit
          show item.children_ids.Nodup
          rw [hch]
          exact List.nodup_nil
        · rw [if_neg hk2] at hkit
          exact hcn k it hkit
    · intro k it hkit
      rw [hget k] at hkit
      by_cases hk1 : k = pid
      · rw [if_pos hk1] at hkit
        cases Option.some.inj hkit
        constructor
        · intro q hq
          rw [hsome2 q]
          exact Or.inr ((hdang pid P hPget).1 q hq)
        · intro x hx
          rcases List.mem_append.mp hx with h | h
          · rw [hsome2 x]
            exact Or.inr ((hdang pid P hPget).2 x h)
          · simp only [List.mem_singleton] at h
            rw [hsome2 x]
            exact Or.inl h
      · rw [if_neg hk1] at hkit
        by_cases hk2 : k = item.id
        · rw [if_pos hk2] at hkit
          cases Option.some.inj hkit
          constructor
          · intro q hq
            have hq2 : q ∈ (some pid : Option Nat) := hq
            have hq3 : pid = q := by simpa using hq2
            rw [hsome2 q]
            refine Or.inr ?_
            rw [← hq3, hPget]
            rfl
          · intro x hx
            have hx2 : x ∈ item.children_ids := hx
            rw [hch] at hx2
            simp at hx2
        · rw [if_neg hk2] at hkit
          obtain ⟨h1, h2⟩ := hdang k it hkit
          refine ⟨fun q hq => ?_, fun x hx => ?_⟩
          · rw [hsome2 q]
            exact Or.inr (h1 q hq)
          · rw [hsome2 x]
            exact Or.inr (h2 x hx)
    · intro ka A kb B hA hB
      rw [hget ka] at hA
      rw [hget kb] at hB
      by_cases hka1 : ka = pid
      · rw [if_pos hka1] at hA
        cases Option.some.inj hA
        subst hka1
        by_cases hkb1 : kb = ka
        · rw [if_pos hkb1] at hB
          cases Option.some.inj hB
          subst hkb1
          show kb ∈ P.children_ids ++ [item.id] ↔ P.parent_id = some kb
          constructor
          · intro hmm
            rcases List.mem_append.mp hmm with h | h
            · exact (hsym kb P kb P hPget hPget).mp h
            · simp only [List.mem_singleton] at h
              exact absurd h hpne
          · intro hmm
            exact List.mem_append.mpr (Or.inl ((hsym kb P kb P hPget hPget).mpr hmm))
        · rw [if_neg hkb1] at hB
          by_cases hkb2 : kb = item.id
          · rw [if_pos hkb2] at hB
            cases Option.some.inj hB
            subst hkb2
            exact iff_of_true (List.mem_append.mpr (Or.inr (by simp))) rfl
          · rw [if_neg hkb2] at hB
            show kb ∈ P.children_ids ++ [item.id] ↔ B.parent_id = some ka
            constructor
            · intro hmm
              rcases List.mem_append.mp hmm with h | h
              · exact (hsym ka P kb B hPget hB).mp h
              · simp only [List.mem_singleton] at h
                exact absurd h hkb2
            · intro hmm
              exact List.mem_append.mpr (Or.inl ((hsym ka P kb B hPget hB).mpr hmm))
      · rw [if_neg hka1] at hA
        by_cases hka2 : ka = item.id
        · rw [if_pos hka2] at hA
          cases Option.some.inj hA
          subst hka2
          have hLHS : ∀ x, x ∉ item.children_ids := by
            intro x hx
            rw [hch] at hx
            simp at hx
          by_cases hkb1 : kb = pid
          · rw [if_pos hkb1] at hB
            cases Option.some.inj hB
            refine iff_of_false (hLHS kb) ?_
            show P.parent_id ≠ some item.id
            exact (hfresh2 pid P hPget).2
          · rw [if_neg hkb1] at hB
            by_cases hkb2 : kb = item.id
            · rw [if_pos hkb2] at hB
              cases Option.some.inj hB
              refine iff_of_false (hLHS kb) ?_
              show some pid ≠ some item.id
              intro hh
              exact hpne (Option.some.inj hh)
            · rw [if_neg hkb2] at hB
              refine iff_of_false (hLHS kb) ?_
              exact (hfresh2 kb B hB).2
        · rw [if_neg hka2] at hA
          by_cases hkb1 : kb = pid
          · rw [if_pos hkb1] at hB
            cases Option.some.inj hB
            subst hkb1
            show kb ∈ A.children_ids ↔ P.parent_id = some ka
            exact hsym ka A kb P hA hPget
          · rw [if_neg hkb1] at hB
            by_cases hkb2 : kb = item.id
            · rw [if_pos hkb2] at hB
              cases Option.some.inj hB
              subst hkb2
              refine iff_of_false ?_ ?_
              · intro hmm
                exact (hfresh2 ka A hA).1 hmm
              · show some pid ≠ some ka
                intro hh
                exact hka1 (Option.some.inj hh).symm
            · rw [if_neg hkb2] at hB
              exact hsym ka A kb B hA hB

/-! ## C3: capacity failure of link_parent_and_child mutates the child -/

/-- C3 (amended): when the parent is at 100 children and does not hold
the child, `link_parent_and_child` raises the capacity error, but only
after the child's `parent_id` has been overwritten with the parent's id;
the parent entry is untouched. -/
theorem C3_linkCapacity_mutates_child (b : WorkBoard) (p c : Nat) (P C : WorkItem)
    (hP : dictGet b.work_items p = some P) (hC : dictGet b.work_items c = some C)
    (hlen : P.children_ids.length = 100) (hmem : c ∉ P.children_ids) :
    b.link_parent_and_child p c =
      (some .capacity, b.setItem c (C.add_parent p)) := by
  by_cases hpc : p = c
  · subst hpc
    obtain rfl : P = C := by
      rw [hP] at hC
      exact Option.some.inj hC
    simp [WorkBoard.link_parent_and_child, WorkBoard.find_work_item, WorkBoard.setItem, hP,
      dictGet_set_self, WorkItem.add_child, WorkItem.add_parent, hmem, hlen]
  · simp [WorkBoard.link_parent_and_child, WorkBoard.find_work_item, WorkBoard.setItem, hP, hC,
      dictGet_set_ne _ _ hpc, WorkItem.add_child, hmem, hlen]

/-- C3 counterexample to the claim as stated: the capacity failure does
not leave both items unchanged — the child's `parent_id` is mutated. -/
theorem C3_linkCapacity_cex :
    (c3Board.link_parent_and_child 100 101).1 = some .capacity ∧
    dictGet (c3Board.link_parent_and_child 100 101).2.work_items 101 ≠ some c3Child := by
  decide

theorem C3_linkCapacity_witness :
    c3Board.link_parent_and_child 100 101 =
      (some .capacity, c3Board.setItem 101 (c3Child.add_parent 100)) :=
  C3_linkCapacity_mutates_child c3Board 100 101 c3Parent c3Child rfl rfl (by decide) (by decide)

/-! ## C4: update_work_item performs no validation (code bug) -/

/-- C4: the update path uses pydantic `model_copy(update=...)`, which
does not validate; updating the title to the empty string succeeds and
stores an item violating the model's own `min_length=1` constraint,
where the spec requires a validation error leaving the item unchanged. -/
theorem C4_update_skips_validation :
    (c4Board.update_work_item 1 c4Update).1 = none ∧
    dictGet (c4Board.update_work_item 1 c4Update).2.work_items 1 =
      some { c4Item with title := "" } ∧
    ¬ validWorkItem { c4Item with title := "" } := by
  decide

/-! ## C6: update round-trip -/

/-- C6: updating only the title stores a copy whose title is the new
string and whose other fields are exactly those of the stored item. -/
theorem C6_update_roundtrip (b : WorkBoard) (id : Nat) (it : WorkItem) (T : String)
    (h : dictGet b.work_items id = some it) :
    b.update_work_item id ⟨some T, none, none⟩ =
      (none, b.setItem id { it with title := T }) ∧
    (b.update_work_item id ⟨some T, none, none⟩).2.get_work_item id =
      .ok { it with title := T } := by
  have h1 : b.update_work_item id ⟨some T, none, none⟩ =
      (none, b.setItem id { it with title := T }) := by
    simp [WorkBoard.update_work_item, WorkBoard.find_work_item, h, modelCopy]
  refine ⟨h1, ?_⟩
  rw [h1]
  simp [WorkBoard.get_work_item, WorkBoard.find_work_item, WorkBoard.setItem, dictGet_set_self]

theorem C6_update_roundtrip_witness :
    c6Board.update_work_item 1 ⟨some "T", none, none⟩ =
      (none, c6Board.setItem 1 { c6Item with title := "T" }) ∧
    (c6Board.update_work_item 1 ⟨some "T", none, none⟩).2.get_work_item 1 =
      .ok { c6Item with title := "T" } :=
  C6_update_roundtrip c6Board 1 c6Item "T" rfl

/-! ## C7: unlink of a missing link fails before any mutation -/

/-- C7: when the child id is not among the parent's children,
`unlink_parent_and_child` raises the relationship error and returns the
board exactly as it was. -/
theorem C7_unlink_missing_link_atomic (b : WorkBoard) (p c : Nat) (P C : WorkItem)
    (hP : dictGet b.work_items p = some P) (hC : dictGet b.work_items c = some C)
    (hmem : c ∉ P.children_ids) :
    b.unlink_parent_and_child p c = (some .relationship, b) := by
  simp [WorkBoard.unlink_parent_and_child, WorkBoard.find_work_item, hP, hC,
    WorkItem.remove_child, hmem]

theorem C7_unlink_missing_link_witness :
    c7Board.unlink_parent_and_child 1 2 = (some .relationship, c7Board) :=
  C7_unlink_missing_link_atomic c7Board 1 2 c7Parent c7Child rfl rfl (by decide)

/-! ## C8: capacity enforcement -/

/-- C8: a board holding 5000 items rejects a further add with the
capacity error and is returned unchanged; an item at 100 children
rejects a new child id with the capacity error. -/
theorem C8_capacity_enforcement :
    (∀ (b : WorkBoard) (it : WorkItem), b.work_items.length = 5000 →
      b.add_work_item it = (some .capacity, b)) ∧
    (∀ (it : WorkItem) (cid : Nat), it.children_ids.length = 100 →
      cid ∉ it.children_ids → it.add_child cid = .error .capacity) := by
  constructor
  · intro b it h
    simp [WorkBoard.add_work_item, h]
  · intro it cid h hmem
    simp [WorkItem.add_child, hmem, h]

theorem C8_capacity_enforcement_witness :
    c8BigBoard.add_work_item c8NewItem = (some .capacity, c8BigBoard) ∧
    c8FullParent.add_child 200 = .error .capacity :=
  ⟨C8_capacity_enforcement.1 c8BigBoard c8NewItem (by simp [c8BigBoard]),
   C8_capacity_enforcement.2 c8FullParent 200 (by simp [c8FullParent]) (by decide)⟩

/-! ## C9: silent overwrite on duplicate id -/

/-- C9: adding a link-free item whose id is already a key replaces the
stored item in place, without error and without growing the board. -/
theorem C9_duplicate_id_overwrite (b : WorkBoard) (item old : WorkItem)
    (hlt : b.work_items.length < 5000)
    (hold : dictGet b.work_items item.id = some old)
    (hpar : item.parent_id = none) (hch : item.children_ids = []) :
    b.add_work_item item = (none, b.setItem item.id item) ∧
    dictGet (dictSet b.work_items item.id item) item.id = some item ∧
    (dictSet b.work_items item.id item).length = b.work_items.length := by
  refine ⟨?_, dictGet_set_self _ _ _, dictSet_length_present _ _ _ old hold⟩
  simp [WorkBoard.add_work_item, WorkBoard.setItem, Nat.not_le.mpr hlt, hpar, hch,
    WorkBoard.linkChildren]

theorem C9_duplicate_id_overwrite_witness :
    c9Board.add_work_item c9New = (none, c9Board.setItem c9New.id c9New) ∧
    dictGet (dictSet c9Board.work_items c9New.id c9New) c9New.id = some c9New ∧
    (dictSet c9Board.work_items c9New.id c9New).length = c9Board.work_items.length :=
  C9_duplicate_id_overwrite c9Board c9New c9Old (by decide) rfl rfl rfl

/-! ## C10: unlink clears the child parent pointer unconditionally -/

/-- C10: when the link exists on the parent side, unlink succeeds and
the child's stored `parent_id` is `none` afterwards, whatever it was. -/
theorem C10_unlink_clears_parent (b : WorkBoard) (p c : Nat) (P C : WorkItem)
    (hP : dictGet b.work_items p = some P) (hC : dictGet b.work_items c = some C)
    (hmem : c ∈ P.children_ids) :
    (b.unlink_parent_and_child p c).1 = none ∧
    ∃ C2, dictGet (b.unlink_parent_and_child p c).2.work_items c = some C2 ∧
      C2.parent_id = none := by
  unfold WorkBoard.unlink_parent_and_child WorkBoard.find_work_item
  rw [hP, hC]
  simp only [WorkItem.remove_child, if_pos hmem]
  exact ⟨trivial, _, dictGet_set_self _ _ _, rfl⟩

theorem C10_unlink_clears_parent_witness :
    (c10Board.unlink_parent_and_child 1 2).1 = none ∧
    ∃ C2, dictGet (c10Board.unlink_parent_and_child 1 2).2.work_items 2 = some C2 ∧
      C2.parent_id = none :=
  C10_unlink_clears_parent c10Board 1 2 c10Parent c10Child rfl rfl (by decide)


/-! ## C2: add_work_item registers the item before linking -/

/-- Running the child-link loop of `add_work_item` over a list of ids
that are all recorded as children of `pid`, where some listed id other
than `pid` is absent from the store, raises `WorkItemNotFoundError`;
the `pid` entry is still registered afterwards. -/
theorem linkChildren_missing (pid : Nat) (l : List Nat) :
    ∀ (b' : WorkBoard) (it : WorkItem),
      dictGet b'.work_items pid = some it →
      (∀ x ∈ l, x ∈ it.children_ids) →
      (∃ c0 ∈ l, c0 ≠ pid ∧ dictGet b'.work_items c0 = none) →
      (WorkBoard.linkChildren pid b' l).1 = some .notFound ∧
      (dictGet (WorkBoard.linkChildren pid b' l).2.work_items pid).isSome = true := by
  induction l with
  | nil =>
    intro b' it hit hsub hex
    simp at hex
  | cons c rest ih =>
    intro b' it hit hsub hex
    obtain ⟨c0, hc0l, hc0ne, hc0none⟩ := hex
    have hcmem : c ∈ it.children_ids := hsub c (List.mem_cons_self _ _)
    rcases hc : dictGet b'.work_items c with _ | C
    · have hlink : b'.link_parent_and_child pid c = (some .notFound, b') := by
        simp [WorkBoard.link_parent_and_child, WorkBoard.find_work_item, hit, hc]
      have hstep : WorkBoard.linkChildren pid b' (c :: rest) = (some .notFound, b') := by
        simp only [WorkBoard.linkChildren]
        rw [hlink]
      rw [hstep]
      exact ⟨rfl, by simp [hit]⟩
    · have hc0c : c0 ≠ c := by
        intro hh
        rw [hh, hc] at hc0none
        exact Option.noConfusion hc0none
      have hc0rest : c0 ∈ rest := by
        rcases List.mem_cons.mp hc0l with h1 | h1
        · exact absurd h1 hc0c
        · exact h1
      by_cases hpc : pid = c
      · subst hpc
        obtain rfl : it = C := by
          rw [hit] at hc
          exact Option.some.inj hc
        have hlink : b'.link_parent_and_child pid pid =
            (none, (b'.setItem pid (it.add_parent pid)).setItem pid (it.add_parent pid)) := by
          simp [WorkBoard.link_parent_and_child, WorkBoard.find_work_item, hit,
            getItem_set_self, WorkItem.add_child, WorkItem.add_parent, hcmem]
        have hstep : WorkBoard.linkChildren pid b' (pid :: rest) =
            WorkBoard.linkChildren pid
              ((b'.setItem pid (it.add_parent pid)).setItem pid (it.add_parent pid)) rest := by
          simp only [WorkBoard.linkChildren]
          rw [hlink]
        rw [hstep]
        refine ih _ (it.add_parent pid) (getItem_set_self _ _ _) ?_ ?_
        · intro x hx
          simpa [WorkItem.add_parent] using hsub x (List.mem_cons_of_mem _ hx)
        · refine ⟨c0, hc0rest, hc0ne, ?_⟩
          rw [getItem_set_ne _ _ hc0ne, getItem_set_ne _ _ hc0ne]
          exact hc0none
      · have hlink : b'.link_parent_and_child pid c =
            (none, (b'.setItem c (C.add_parent pid)).setItem pid it) := by
          simp [WorkBoard.link_parent_and_child, WorkBoard.find_work_item, hit, hc,
            dictGet_set_ne, hpc, WorkBoard.setItem, dictGet_set_self,
            WorkItem.add_child, hcmem]
        have hstep : WorkBoard.linkChildren pid b' (c :: rest) =
            WorkBoard.linkChildren pid ((b'.setItem c (C.add_parent pid)).setItem pid it) rest := by
          simp only [WorkBoard.linkChildren]
          rw [hlink]
        rw [hstep]
        refine ih _ it (getItem_set_self _ _ _) ?_ ?_
        · intro x hx
          exact hsub x (List.mem_cons_of_mem _ hx)
        · refine ⟨c0, hc0rest, hc0ne, ?_⟩
          rw [getItem_set_ne _ _ hc0ne, getItem_set_ne _ _ hc0c]
          exact hc0none

/-- C2 (amended): when the board is below capacity and the item's id is
fresh, an unresolvable preset link makes `add_work_item` raise
`WorkItemNotFoundError`, but the item has already been registered: with
a missing parent the result is exactly the board plus the registered
item (no link mutation), and with a missing preset child (the preset
parent, when any, resolving with spare capacity) the error is raised
with the item still registered. -/
theorem C2_addWorkItem_nonatomic (b : WorkBoard) (item : WorkItem)
    (hcap : b.work_items.length < 5000)
    (hfresh : dictGet b.work_items item.id = none) :
    (∀ p, item.parent_id = some p → p ≠ item.id → dictGet b.work_items p = none →
      b.add_work_item item = (some .notFound, b.setItem item.id item)) ∧
    ((∀ p ∈ item.parent_id, ∃ P, dictGet b.work_items p = some P ∧ P.children_ids.length < 100) →
     (∃ c0 ∈ item.children_ids, c0 ≠ item.id ∧ dictGet b.work_items c0 = none) →
     (b.add_work_item item).1 = some .notFound ∧
     (dictGet (b.add_work_item item).2.work_items item.id).isSome = true) := by
  constructor
  · intro p hp hpne hpnone
    simp [WorkBoard.add_work_item, Nat.not_le.mpr hcap, hp,
      WorkBoard.link_parent_and_child, WorkBoard.find_work_item, WorkBoard.setItem,
      dictGet_set_ne, hpne, hpnone]
  · intro hparOK hex
    obtain ⟨c0, hc0m, hc0ne, hc0none⟩ := hex
    rcases hp : item.parent_id with _ | p
    · have h1 : b.add_work_item item =
          WorkBoard.linkChildren item.id (b.setItem item.id item) item.children_ids := by
        simp [WorkBoard.add_work_item, Nat.not_le.mpr hcap, hp]
      rw [h1]
      refine linkChildren_missing item.id item.children_ids _ item
        (getItem_set_self _ _ _) (fun x hx => hx) ⟨c0, hc0m, hc0ne, ?_⟩
      rw [getItem_set_ne _ _ hc0ne]
      exact hc0none
    · obtain ⟨P, hPget, hPlen⟩ := hparOK p (by rw [hp]; rfl)
      have hpne : p ≠ item.id := by
        intro hh
        rw [hh, hfresh] at hPget
        exact Option.noConfusion hPget
      have hc0p : c0 ≠ p := by
        intro hh
        rw [hh, hPget] at hc0none
        exact Option.noConfusion hc0none
      have key : ∃ Q, b.add_work_item item =
          WorkBoard.linkChildren item.id
            (((b.setItem item.id item).setItem item.id (item.add_parent p)).setItem p Q)
            item.children_ids := by
        by_cases hPm : item.id ∈ P.children_ids
        · refine ⟨P, ?_⟩
          simp [WorkBoard.add_work_item, Nat.not_le.mpr hcap, hp,
            WorkBoard.link_parent_and_child, WorkBoard.find_work_item, WorkBoard.setItem,
            dictGet_set_self, dictGet_set_ne, hpne, hPget, WorkItem.add_child, hPm]
        · refine ⟨{ P with children_ids := P.children_ids ++ [item.id] }, ?_⟩
          simp [WorkBoard.add_work_item, Nat.not_le.mpr hcap, hp,
            WorkBoard.link_parent_and_child, WorkBoard.find_work_item, WorkBoard.setItem,
            dictGet_set_self, dictGet_set_ne, hpne, hPget, WorkItem.add_child, hPm,
            Nat.not_le.mpr hPlen]
      obtain ⟨Q, hkey⟩ := key
      rw [hkey]
      refine linkChildren_missing item.id item.children_ids _ (item.add_parent p)
        ?_ ?_ ⟨c0, hc0m, hc0ne, ?_⟩
      · rw [getItem_set_ne _ _ (Ne.symm hpne), getItem_set_self]
      · intro x hx
        simpa [WorkItem.add_parent] using hx
      · rw [getItem_set_ne _ _ hc0p, getItem_set_ne _ _ hc0ne, getItem_set_ne _ _ hc0ne]
        exact hc0none

/-- C2 counterexample to the claim as stated: adding an item whose
preset parent is absent raises `WorkItemNotFoundError` but does NOT
leave `work_items` as it was — the item is registered. -/
theorem C2_addWorkItem_cex :
    (emptyBoard.add_work_item c2Item).1 = some .notFound ∧
    (emptyBoard.add_work_item c2Item).2.work_items ≠ emptyBoard.work_items := by
  decide

theorem C2_addWorkItem_witness :
    emptyBoard.add_work_item c2Item = (some .notFound, emptyBoard.setItem c2Item.id c2Item) :=
  (C2_addWorkItem_nonatomic emptyBoard c2Item (by decide) rfl).1 99 rfl (by decide) rfl


/-! ## C5: delete orphans without cascading -/

/-- C5 (amended): on an invariant-satisfying board, deleting an item
whose parent (when set) is not also one of its children succeeds,
removes the item, leaves each of its children stored with `parent_id`
cleared and every other field intact, and changes the parent only by
erasing the deleted id from its `children_ids`.  (Without the
no-mutual-link hypothesis the claim fails: deleting one side of a
reachable two-item cycle also clears the parent's own parent pointer.) -/
theorem C5_delete_orphans (b : WorkBoard) (id : Nat) (X : WorkItem)
    (hinv : boardInv b) (hX : dictGet b.work_items id = some X)
    (hnc : ∀ pid ∈ X.parent_id, pid ∉ X.children_ids) :
    (b.delete_work_item id).1 = none ∧
    dictGet (b.delete_work_item id).2.work_items id = none ∧
    (∀ c0 ∈ X.children_ids, ∃ C0, dictGet b.work_items c0 = some C0 ∧
      dictGet (b.delete_work_item id).2.work_items c0 = some { C0 with parent_id := none }) ∧
    (∀ pid ∈ X.parent_id, ∃ P, dictGet b.work_items pid = some P ∧
      dictGet (b.delete_work_item id).2.work_items pid =
        some { P with children_ids := P.children_ids.erase id }) := by
  have hinvL := boardInvL_of_boardInv hinv
  obtain ⟨h1, h2, h3, hknd⟩ := delete_char b id X hinvL hX
  obtain ⟨hnd, hwk, hcn, hdang, hsym⟩ := hinvL
  have hnoself : X.parent_id ≠ some id := by
    intro hp
    exact hnc id (by rw [hp]; rfl) ((hsym id X id X hX hX).mpr hp)
  have hdc : deleteChildren X id = X.children_ids := by
    unfold deleteChildren
    rw [if_neg hnoself]
  refine ⟨h1, h2, ?_, ?_⟩
  · intro c0 hc0
    have hc0id : c0 ≠ id := by
      intro hh
      subst hh
      exact hnoself ((hsym c0 X c0 X hX hX).mp hc0)
    obtain ⟨C0, hC0⟩ := Option.isSome_iff_exists.mp ((hdang id X hX).2 c0 hc0)
    refine ⟨C0, hC0, ?_⟩
    rw [h3 c0 hc0id, hC0]
    have hpif : c0 ∈ deleteChildren X id := by
      rw [hdc]
      exact hc0
    have hcif : ¬ (X.parent_id = some c0) := by
      intro hp
      exact hnc c0 (by rw [hp]; rfl) hc0
    simp [hpif, hcif]
  · intro pid hpid
    have hpar : X.parent_id = some pid := hpid
    obtain ⟨P, hPget⟩ := Option.isSome_iff_exists.mp ((hdang id X hX).1 pid hpid)
    have hpidid : pid ≠ id := fun hh => hnoself (hh ▸ hpar)
    refine ⟨P, hPget, ?_⟩
    rw [h3 pid hpidid, hPget]
    have hpif : pid ∉ deleteChildren X id := by
      rw [hdc]
      exact hnc pid hpid
    simp [hpif, hpar]

/-- C5 counterexample to the claim as stated: on a reachable two-item
cycle satisfying the invariant, deleting X also clears the parent's own
`parent_id`, so the parent is NOT merely its old value with X's id
erased from `children_ids`. -/
theorem C5_delete_orphans_cex :
    boardInv c5CycBoard ∧
    dictGet c5CycBoard.work_items 1 = some c5X ∧
    c5X.parent_id = some 2 ∧
    (c5CycBoard.delete_work_item 1).1 = none ∧
    dictGet (c5CycBoard.delete_work_item 1).2.work_items 2 ≠
      some { c5P with children_ids := c5P.children_ids.erase 1 } := by
  decide

theorem C5_delete_orphans_witness :
    (c5WitBoard.delete_work_item 1).1 = none ∧
    dictGet (c5WitBoard.delete_work_item 1).2.work_items 1 = none ∧
    (∀ c0 ∈ c5Item.children_ids, ∃ C0, dictGet c5WitBoard.work_items c0 = some C0 ∧
      dictGet (c5WitBoard.delete_work_item 1).2.work_items c0 = some { C0 with parent_id := none }) ∧
    (∀ pid ∈ c5Item.parent_id, ∃ P, dictGet c5WitBoard.work_items pid = some P ∧
      dictGet (c5WitBoard.delete_work_item 1).2.work_items pid =
        some { P with children_ids := P.children_ids.erase 1 }) :=
  C5_delete_orphans c5WitBoard 1 c5Item (by decide) rfl (by decide)


/-- Deletion of an existing item preserves the invariant (cycles and
all). -/
theorem inv_delete (b : WorkBoard) (id : Nat)
    (hinv : boardInvL b) (hid : (dictGet b.work_items id).isSome = true) :
    boardInvL (b.delete_work_item id).2 := by
  obtain ⟨X, hX⟩ := Option.isSome_iff_exists.mp hid
  obtain ⟨h1, h2, h3, hknd⟩ := delete_char b id X hinv hX
  obtain ⟨hnd, hwk, hcn, hdang, hsym⟩ := hinv
  have hlook : ∀ k it, dictGet (b.delete_work_item id).2.work_items k = some it →
      k ≠ id ∧ ∃ v, dictGet b.work_items k = some v ∧
        it = { v with
          parent_id := if k ∈ deleteChildren X id then none else v.parent_id,
          children_ids := if X.parent_id = some k then v.children_ids.erase id
                          else v.children_ids } := by
    intro k it hkit
    by_cases hk : k = id
    · subst hk
      rw [h2] at hkit
      exact Option.noConfusion hkit
    · refine ⟨hk, ?_⟩
      rw [h3 k hk] at hkit
      rcases hv : dictGet b.work_items k with _ | v
      · rw [hv] at hkit
        exact Option.noConfusion hkit
      · rw [hv] at hkit
        exact ⟨v, rfl, (Option.some.inj hkit).symm⟩
  have hsome2 : ∀ x, (dictGet (b.delete_work_item id).2.work_items x).isSome = true ↔
      (x ≠ id ∧ (dictGet b.work_items x).isSome = true) := by
    intro x
    by_cases hx : x = id
    · subst hx
      rw [h2]
      simp
    · rw [h3 x hx]
      rcases hv : dictGet b.work_items x with _ | v
      · simp
      · simp [hx]
  refine ⟨?_, ?_, ?_, ?_, ?_⟩
  · exact hknd
  · intro k it hkit
    obtain ⟨hk, v, hv, rfl⟩ := hlook k it hkit
    exact hwk k v hv
  · intro k it hkit
    obtain ⟨hk, v, hv, rfl⟩ := hlook k it hkit
    show (if X.parent_id = some k then v.children_ids.erase id else v.children_ids).Nodup
    by_cases hc : X.parent_id = some k
    · rw [if_pos hc]
      exact (hcn k v hv).erase _
    · rw [if_neg hc]
      exact hcn k v hv
  · intro k it hkit
    obtain ⟨hk, v, hv, rfl⟩ := hlook k it hkit
    constructor
    · intro q hq
      have hq2 : q ∈ (if k ∈ deleteChildren X id then none else v.parent_id) := hq
      by_cases hkdc : k ∈ deleteChildren X id
      · rw [if_pos hkdc] at hq2
        simp at hq2
      · rw [if_neg hkdc] at hq2
        rw [hsome2 q]
        refine ⟨?_, (hdang k v hv).1 q hq2⟩
        intro hqid
        subst hqid
        have hkmem : k ∈ X.children_ids := (hsym q X k v hX hv).mpr hq2
        exact hkdc (mem_deleteChildren X q hkmem hk)
    · intro x hx
      have hx2 : x ∈ (if X.parent_id = some k then v.children_ids.erase id
          else v.children_ids) := hx
      have hxmem : x ∈ v.children_ids := by
        by_cases hc : X.parent_id = some k
        · rw [if_pos hc] at hx2
          exact List.mem_of_mem_erase hx2
        · rw [if_neg hc] at hx2
          exact hx2
      have hxid : x ≠ id := by
        intro hxeq
        subst hxeq
        by_cases hc : X.parent_id = some k
        · rw [if_pos hc] at hx2
          exact (hcn k v hv).not_mem_erase hx2
        · rw [if_neg hc] at hx2
          exact hc ((hsym k v x X hv hX).mp hx2)
      rw [hsome2 x]
      exact ⟨hxid, (hdang k v hv).2 x hxmem⟩
  · intro ka A kb B hA hB
    obtain ⟨hka, a, hva, rfl⟩ := hlook ka A hA
    obtain ⟨hkb, v, hvb, rfl⟩ := hlook kb B hB
    show kb ∈ (if X.parent_id = some ka then a.children_ids.erase id else a.children_ids) ↔
      (if kb ∈ deleteChildren X id then none else v.parent_id) = some ka
    have hLHS : kb ∈ (if X.parent_id = some ka then a.children_ids.erase id
        else a.children_ids) ↔ kb ∈ a.children_ids := by
      by_cases hc : X.parent_id = some ka
      · rw [if_pos hc]
        exact List.mem_erase_of_ne hkb
      · rw [if_neg hc]
    have hold := hsym ka a kb v hva hvb
    by_cases hkbdc : kb ∈ deleteChildren X id
    · rw [if_pos hkbdc, hLHS]
      refine iff_of_false ?_ (fun hh => Option.noConfusion hh)
      intro hmm
      have h5 := hold.mp hmm
      have h6 : v.parent_id = some id :=
        (hsym id X kb v hX hvb).mp (deleteChildren_subset X id kb hkbdc)
      rw [h6] at h5
      exact hka (Option.some.inj h5).symm
    · rw [if_neg hkbdc, hLHS]
      exact hold

/-! ## C1: link symmetry -/

/-- C1 (amended): link symmetry holds on every board reachable from an
empty board through calls that succeed and never silently re-parent a
child (see `Reachable`); the unrestricted claim is refuted by
`C1_linkSymmetry_cex`. -/
theorem C1_linkSymmetry_guarded : ∀ b, Reachable b → BoardLinkSymmetric b := by
  have key : ∀ b, Reachable b → boardInvL b := by
    intro b h
    induction h with
    | empty i t n d => exact inv_empty i t n d
    | add b item hr hcap hfresh hch hpar ih => exact inv_add b item ih hcap hfresh hch hpar
    | link b p c hr hP hC ih => exact inv_link b p c ih hP hC
    | unlink b p c hr hP hC ih => exact inv_unlink b p c ih hP hC
    | delete b id hr hid ih => exact inv_delete b id ih hid
  intro b h
  exact boardLinkSymmetric_of_boardInvL (key b h)

/-- C1 counterexample to the claim as stated: the five-call sequence
`add A; add B; add C; link(A,C); link(B,C)` (each call succeeding)
leaves `C.id ∈ A.children_ids` while `C.parent_id = B.id ≠ A.id`. -/
theorem C1_linkSymmetry_cex : ¬ BoardLinkSymmetric c1Board := by
  decide

theorem C1_linkSymmetry_witness : BoardLinkSymmetric c1WitBoard :=
  C1_linkSymmetry_guarded c1WitBoard
    (Reachable.link _ 1 2
      (Reachable.add _ itemB
        (Reachable.add _ itemA (Reachable.empty 0 0 "board" "a board")
          (by decide) (by decide) rfl (by decide))
        (by decide) (by decide) rfl (by decide))
      ⟨itemA, by decide, Or.inr (by decide)⟩
      ⟨itemB, by decide, Or.inl rfl⟩)


end WorkApp
